import Mathlib

/-!
# Verification of the poker server round engine (`server.py`)

This file is a shallow embedding, in Lean 4, of the server-side round engine
of the networked poker game (`src/server.py`), together with theorems checking
the natural-language specification against that code.

Modelling conventions:

* Python cards are strings such as `"10s"`; the code only ever inspects a
  card through `rv` (the index of its rank in `RANK_ORDER`, 0–12) and its
  final character (the suit).  We therefore embed a card as a pair of
  naturals, `rank` (0 = "2" … 12 = "A") and `suit` (0 = s, 1 = h, 2 = d,
  3 = c).  Equality is value based, as for Python strings.
* Python integers on the game paths are always non-negative (chips, pot,
  wagers), and every subtraction in the source is either guarded or wrapped
  in `max 0 (…)`; `Nat` with truncated subtraction coincides with the Python
  value on each of these expressions, as noted at each site.
* A Python expression that can raise (out-of-range list indexing in
  `score_five`, `list.pop()` on an empty deck, a blocking `recv` that never
  returns) is embedded with `Option`: `none` means the Python code raises or
  blocks, and callers propagate `none` exactly where Python propagates the
  exception.
* Network sends are pure observations.  We record, for each send, its
  destination and message `type` discriminator; the human-readable message
  texts (cosmetic, out of the core's contract per the design document) are
  elided, except for the `reason` field of the winner message which the
  specification names explicitly.
* `receive_line` is modelled by consuming the head of an explicit script
  (trace) of incoming events; `disc` stands for a read that reports
  disconnection (`None` in the source).
-/

/-- A playing card: `rank` 0–12 (2 … Ace), `suit` 0–3 (s, h, d, c).
Embeds the Python card string; `rank` is exactly `rv(card)` from the source. -/
structure Card where
  rank : Nat
  suit : Nat
deriving DecidableEq, Repr

/-- Descending sort, embedding Python `sorted(l, reverse=True)` on integers. -/
def sortDesc (l : List Nat) : List Nat := l.insertionSort (· ≥ ·)

/-- Python `max(l)` for a list of naturals (the source only calls it on
non-empty lists; `0` is the fold identity so the value agrees there). -/
def listMax (l : List Nat) : Nat := l.foldr Nat.max 0

/-- Python `min(l)` for a non-empty list of naturals (the source only calls
it on non-empty lists; on `[]` we return `0`, a point Python would raise on,
but every call site below is guarded by a non-emptiness test). -/
def listMin (l : List Nat) : Nat :=
  match l with
  | [] => 0
  | x :: xs => xs.foldr Nat.min x

/-- Embedding of `itertools.combinations(l, n)`: all length-`n` sublists of `l`, in the
same (lexicographic-by-position) order as the Python iterator. -/
def combinations : Nat → List α → List (List α)
  | 0, _ => [[]]
  | _ + 1, [] => []
  | n + 1, x :: xs => (combinations n xs).map (x :: ·) ++ combinations (n + 1) xs

/-- Embedding of `score_five(hand)` from `server.py`.

```
ranks = sorted([rv(c) for c in hand], reverse=True)
suits = [c[-1] for c in hand]
cnt = sorted({r: ranks.count(r) for r in ranks}.values(), reverse=True)
flush    = len(set(suits)) == 1
straight = len(set(ranks)) == 5 and (max(ranks) - min(ranks) == 4)
```
then the ten-way ladder of `if` tests.  `len(set(l))` is `l.dedup.length`;
the multiset of dict values `{r: ranks.count(r)}.values()` is the multiset of
counts of the distinct ranks, so sorting it descending gives the same list as
sorting `(ranks.dedup).map (ranks.count ·)`.  The indexings `cnt[0]` and
`cnt[1]` can raise `IndexError` in Python; they are embedded with `List.get?`
and `Option` bind, placed exactly where Python's lazy `and` would evaluate
them (`cnt[1]` is only read when `cnt[0] == 3`, or when `cnt[0] == 2` after
the flush/straight/trips tests have failed). -/
def score_five (hand : List Card) : Option (Nat × String) :=
  let ranks := sortDesc (hand.map Card.rank)
  let suits := hand.map Card.suit
  let cnt := sortDesc (ranks.dedup.map (fun r => ranks.count r))
  let flush := suits.dedup.length == 1
  let straight := ranks.dedup.length == 5 && (listMax ranks - listMin ranks == 4)
  if flush && straight && (listMax ranks == 12) then some (9, "Royal Flush")
  else if flush && straight then some (8, "Straight Flush")
  else
    match cnt.get? 0 with
    | none => none
    | some c0 =>
      if c0 == 4 then some (7, "Four of a Kind")
      else if c0 == 3 then
        match cnt.get? 1 with
        | none => none
        | some c1 =>
          if c1 == 2 then some (6, "Full House")
          else if flush then some (5, "Flush")
          else if straight then some (4, "Straight")
          else some (3, "Three of a Kind")
      else if flush then some (5, "Flush")
      else if straight then some (4, "Straight")
      else if c0 == 2 then
        match cnt.get? 1 with
        | none => none
        | some c1 =>
          if c1 == 2 then some (2, "Two Pair")
          else some (1, "One Pair")
      else some (0, "High Card")

/-- Python `max(iterable, key=lambda x: x[0])`: keeps the earlier element on
ties, replaces only on a strictly larger key. -/
def maxByScore (x : Nat × String) (xs : List (Nat × String)) : Nat × String :=
  xs.foldl (fun acc y => if acc.1 < y.1 then y else acc) x

/-- Embedding of `evaluate_hand(hand)` from `server.py`: at most 5 cards are classified
directly, otherwise every 5-card combination is scored and the maximum by
score is kept.  `mapM` makes the whole call raise (`none`) whenever any
subset evaluation raises, as the Python generator inside `max` would. -/
def evaluate_hand (hand : List Card) : Option (Nat × String) :=
  if hand.length ≤ 5 then score_five hand
  else
    match (combinations 5 hand).mapM score_five with
    | none => none
    | some [] => none
    | some (x :: xs) => some (maxByScore x xs)

/-!
## Specification-side hand classifier (for claim C2)

The following definitions are written from the specification's words, not
from the source: "Flush: all five cards share one suit", "Straight
detection: five distinct ranks whose maximum minus minimum equals 4",
"a Royal Flush is a flush and straight whose highest rank is Ace", and the
category ladder 9 … 0.  The rank-multiplicity categories carry their
standard poker meaning (a rank occurring four times, three-plus-two, etc.),
expressed as direct existential tests over the rank counts.
-/

/-- Spec: "all five cards share one suit". -/
def specAllOneSuit (h : List Card) : Bool :=
  match h with
  | [] => true
  | c :: cs => cs.all (fun d => d.suit == c.suit)

/-- Spec: "five distinct ranks whose maximum minus minimum equals 4"
(no special case for the Ace-low wheel). -/
def specStraight (h : List Card) : Bool :=
  decide (h.map Card.rank).Nodup && (h.length == 5)
    && (listMax (h.map Card.rank) - listMin (h.map Card.rank) == 4)

/-- Spec: some rank occurs `k` times among the hand's ranks. -/
def specHasCount (h : List Card) (k : Nat) : Bool :=
  (h.map Card.rank).any (fun r => (h.map Card.rank).count r == k)

/-- Spec: two distinct ranks each occur exactly twice. -/
def specTwoPair (h : List Card) : Bool :=
  let R := h.map Card.rank
  R.any (fun r => R.count r == 2 && R.any (fun s => !(s == r) && R.count s == 2))

/-- The category ladder of the specification, highest to lowest, with the
numeric score 9 down to 0 and the documented category labels. -/
def spec_score (h : List Card) : Nat × String :=
  if specAllOneSuit h && specStraight h && (listMax (h.map Card.rank) == 12) then
    (9, "Royal Flush")
  else if specAllOneSuit h && specStraight h then (8, "Straight Flush")
  else if specHasCount h 4 then (7, "Four of a Kind")
  else if specHasCount h 3 && specHasCount h 2 then (6, "Full House")
  else if specAllOneSuit h then (5, "Flush")
  else if specStraight h then (4, "Straight")
  else if specHasCount h 3 then (3, "Three of a Kind")
  else if specTwoPair h then (2, "Two Pair")
  else if specHasCount h 2 then (1, "One Pair")
  else (0, "High Card")

/-!
## Game state (`PokerGame` in `server.py`)

Seats are indexed by `pid`; `add_player` assigns `pid = len(player_order)`
and appends, so `player_order` is always `[0, 1, …, n-1]` — we represent the
seat map as a list indexed by `pid` and `player_order` as
`List.range players.length`.  The connection, address and lobby/sync fields
play no part in the claims under verification and are omitted.
-/

/-- One seat (`game.players[pid]` in the source). -/
structure Player where
  name : String
  chips : Nat
  hand : List Card
  folded : Bool
  bet : Nat
  active : Bool
  isHost : Bool
deriving DecidableEq, Repr

instance : Inhabited Player :=
  ⟨{ name := "", chips := 0, hand := [], folded := false, bet := 0,
     active := false, isHost := false }⟩

/-- The shared table state (the fields of `PokerGame` used by the round
engine). -/
structure GameState where
  players : List Player
  deck : List Card
  pot : Nat
  currentBet : Nat
  community : List Card
deriving DecidableEq, Repr

/-- Reads `game.players[pid]`.  The source indexes with a known-valid `pid`; all
theorems below carry `pid < s.players.length` where it matters, so the
default value is never observed. -/
def getP (s : GameState) (pid : Nat) : Player := s.players.getD pid default

/-- Write back one seat. -/
def setP (s : GameState) (pid : Nat) (p : Player) : GameState :=
  { s with players := s.players.set pid p }

/-- The sum `sum(seat.chips)` over all seats. -/
def chipSum (s : GameState) : Nat := (s.players.map Player.chips).sum

/-- Embedding of `game.active_in_hand()`: the pids, in seat-join order, with
`not folded and active`. -/
def activeInHand (s : GameState) : List Nat :=
  (List.range s.players.length).filter
    (fun pid => !(getP s pid).folded && (getP s pid).active)

/-- Move `amt` chips from seat `pid` into the pot, adding them to the
seat's street wager: the shared mutation pattern of the CALL and BET/RAISE
branches of `handle_action` (`p["chips"] -= amt; p["bet"] += amt;
game.pot += amt`). -/
def payToPot (s : GameState) (pid : Nat) (amt : Nat) : GameState :=
  { setP s pid
      { getP s pid with chips := (getP s pid).chips - amt,
                        bet := (getP s pid).bet + amt } with
     pot := s.pot + amt }

/-- The successful BET/RAISE mutation: pay `total` into the pot and set the
table's current bet to the seat's new cumulative wager
(`game.current_bet = p["bet"]`). -/
def applyBetRaise (s : GameState) (pid : Nat) (total : Nat) : GameState :=
  { payToPot s pid total with currentBet := (getP s pid).bet + total }

/-- Destination of a network send: one seat (`send_to`) or a broadcast
(`broadcast`, with an optional excluded seat; delivery further skips
inactive seats inside `broadcast`). -/
inductive Dest
  | seat (pid : Nat)
  | table (exclude : Option Nat)
deriving DecidableEq, Repr

/-- An observable send, by message `type` discriminator.  Message text
bodies are cosmetic and elided, except the winner `reason` field. -/
inductive OutMsg
  | info (d : Dest)
  | error (pid : Nat)
  | kicked (pid : Nat)
  | turn
  | yourTurn (pid : Nat)
  | showdown (pid : Nat)
  | reveal
  | winner (player : Nat) (reason : String) (pot : Nat)
  | winnerSplit (players : List Nat) (pot : Nat) (split : Bool)
  | community
  | handDealt (pid : Nat)
deriving DecidableEq, Repr

/-- ASCII uppercase of one character, as Python `str.upper` acts on the
ASCII action verbs this protocol uses.  (Defined over code points so the
kernel can evaluate it; the clients only send ASCII verbs.) -/
def asciiUpper (c : Char) : Char :=
  if 97 ≤ c.toNat ∧ c.toNat ≤ 122 then Char.ofNat (c.toNat - 32) else c

/-- ASCII whitespace, as stripped by Python `str.strip` on these verbs. -/
def isAsciiSpace (c : Char) : Bool :=
  c = ' ' ∨ c = '\t' ∨ c = '\n' ∨ c = '\r'

/-- Python `data.get("action", "").upper().strip()`: uppercase then strip
surrounding whitespace. -/
def normalizeVerb (x : Option String) : String :=
  ⟨((((x.getD "").data.map asciiUpper).dropWhile isAsciiSpace).reverse.dropWhile
      isAsciiSpace).reverse⟩

/-!
## Cheat detection (`cheat_check`)
-/

/-- Embedding of `cheat_check(pid, claimed_score)`.  Recomputes the true score of the
seat's hole cards plus the community cards; on an over-claim it sends a
targeted `KICKED`, broadcasts an `INFO` to everyone else, and permanently
deactivates the seat.  `none` embeds the `IndexError` that `evaluate_hand`
can raise (which Python would propagate out of `cheat_check`).  `claimed`
is an `Int` because the message field is client-supplied and may be
negative (the caller defaults it to `-1`). -/
def cheat_check (s : GameState) (pid : Nat) (claimed : Int) :
    Option (GameState × Bool × List OutMsg) :=
  let p := getP s pid
  match evaluate_hand (p.hand ++ s.community) with
  | none => none
  | some realPair =>
    if (realPair.1 : Int) < claimed then
      some (setP s pid { p with active := false, folded := true }, true,
            [.kicked pid, .info (.table (some pid))])
    else
      some (s, false, [])

/-!
## Single-action processing (`handle_action`)
-/

/-- The value `handle_action` produces: Python `False` (action done, no
reopen), `True` (raise: reopen the street), the string `"re-prompt"`, or a
propagating exception (`exn`, from the `IndexError` path above). -/
inductive ActionResult
  | done
  | reopen
  | reprompt
  | exn
deriving DecidableEq, Repr

/-- One incoming client action record (the parsed JSON line).  `amount` is
`none` when the `"amount"` field is missing or not an integer — Python
defaults a missing field to `0` and rejects non-`int` values with the same
`isinstance`/positivity test, so both collapse to rejection.  `claimedScore`
is `none` when `"claimed_score"` is absent (Python defaults it to `-1`). -/
structure ActionMsg where
  typeField : Option String := none
  action : Option String := none
  amount : Option Int := none
  claimedScore : Option Int := none
deriving DecidableEq, Repr

/-- Embedding of `handle_action(pid, data)` from `server.py`, returning the successor
state, the result, and the sends it performed.  Each arithmetic note:
`call_amount = max(0, current_bet - p.bet)` equals `Nat` truncated
subtraction; the stack subtractions are guarded (`min` cap, affordability
test) so `Nat` subtraction agrees with Python.  On the `exn` result the
state is returned unchanged: in the source, no mutation precedes the raising
call. -/
def handle_action (s : GameState) (pid : Nat) (data : ActionMsg) :
    GameState × ActionResult × List OutMsg :=
  let p := getP s pid
  let action := normalizeVerb data.action
  if action = "FOLD" then
    (setP s pid { p with folded := true }, .done, [.info (.table none)])
  else if action = "CHECK" then
    let callAmount := s.currentBet - p.bet
    if 0 < callAmount then (s, .reprompt, [.error pid])
    else (s, .done, [.info (.table none)])
  else if action = "CALL" then
    let callAmount := s.currentBet - p.bet
    if callAmount = 0 then (s, .done, [.info (.table none)])
    else
      let pay := min callAmount p.chips
      (payToPot s pid pay, .done, [.info (.table none)])
  else if action = "BET" ∨ action = "RAISE" then
    match data.amount with
    | none => (s, .reprompt, [.error pid])
    | some a =>
      if a ≤ 0 then (s, .reprompt, [.error pid])
      else
        let amount := a.toNat
        let callAmount := s.currentBet - p.bet
        let totalNeeded := callAmount + amount
        if p.chips < totalNeeded then (s, .reprompt, [.error pid])
        else
          let claimed := data.claimedScore.getD (-1)
          if 0 ≤ claimed then
            match cheat_check s pid claimed with
            | none => (s, .exn, [])
            | some (s1, true, msgs) => (s1, .done, msgs)
            | some (_, false, _) =>
              -- cheat_check returned False without touching the state
              (applyBetRaise s pid totalNeeded, .reopen, [.info (.table none)])
          else
            (applyBetRaise s pid totalNeeded, .reopen, [.info (.table none)])
  else if action = "QUIT" then
    (setP s pid { p with active := false, folded := true }, .done,
     [.info (.table none)])
  else
    (s, .reprompt, [.error pid])

/-!
## The betting street state machine (`betting_round`)

The driver's `receive_line(pid)` calls happen strictly sequentially, so the
whole street's input is modelled as one script of incoming events consumed
in order.  `Incoming.disc` is a read returning `None` (disconnection).
`betting_round` and its loops additionally return, as ghost observations,
the list of seats actually prompted and whether the street ended normally
(action queue drained) rather than via the fewer-than-two-contenders break;
these extra outputs exist only so the theorems can speak about the trace.
A `none` result is a propagating exception, an exhausted input script
(Python would block forever on `recv`), or exhausted fuel (the source's
`while` loop has no intrinsic termination bound).
-/

/-- One incoming event for some `receive_line` call. -/
inductive Incoming
  | disc
  | msg (data : ActionMsg)
deriving DecidableEq, Repr

/-- How the per-seat inner prompt loop ended. -/
inductive InnerOut
  | disconnected
  | acted (reopened : Bool)
deriving DecidableEq, Repr

/-- Embedding of the inner `while True` prompt loop of `betting_round`: send
`YOUR_TURN`, read one event; a `None` read folds and deactivates the seat; a
`HOST_DECISION_RESPONSE` record is intercepted (its effect touches only the
play-again fields, outside this state) and the loop re-prompts; otherwise
the action is processed, `"re-prompt"` iterates, `True`/`False` exit. -/
def promptLoop (s : GameState) (pid : Nat) :
    List Incoming → Option (GameState × List Incoming × InnerOut)
  | [] => none
  | inc :: rest =>
    match inc with
    | .disc =>
      some (setP s pid { getP s pid with active := false, folded := true },
            rest, .disconnected)
    | .msg data =>
      if data.typeField = some "HOST_DECISION_RESPONSE" then
        promptLoop s pid rest
      else
        match handle_action s pid data with
        | (s1, .reprompt, _) => promptLoop s1 pid rest
        | (s1, .reopen, _) => some (s1, rest, .acted true)
        | (s1, .done, _) => some (s1, rest, .acted false)
        | (_, .exn, _) => none

/-- The seats appended to the action queue after a raise by `pid`: every
other seat, in `player_order` (= seat index) order, that is non-folded,
active, and not already queued.  Mirrors the `for other in
game.player_order: … needs_to_act.append(other)` block. -/
def reAdds (s : GameState) (pid : Nat) (q : List Nat) : List Nat :=
  (List.range s.players.length).filter
    (fun o => o ≠ pid ∧ !(getP s o).folded ∧ (getP s o).active ∧ o ∉ q)

/-- Embedding of the outer `while needs_to_act` loop of `betting_round`.
Pops the queue head; skips seats that have folded or gone inactive;
otherwise runs the prompt loop, re-enqueues on a raise, and breaks the
street as soon as at most one contender remains.  Returns the final state,
the unconsumed script, the seats prompted (appended to the accumulator
`pr`), and `true` when the loop ended with the queue drained. -/
def bettingLoop (fuel : Nat) (s : GameState) (q : List Nat)
    (script : List Incoming) (pr : List Nat) :
    Option (GameState × List Incoming × List Nat × Bool) :=
  match fuel with
  | 0 => none
  | fuel + 1 =>
    match q with
    | [] => some (s, script, pr, true)
    | pid :: rest =>
      if (getP s pid).folded || !(getP s pid).active then
        bettingLoop fuel s rest script pr
      else
        match promptLoop s pid script with
        | none => none
        | some (s1, script1, out) =>
          let q1 := match out with
            | .acted true => rest ++ reAdds s1 pid rest
            | _ => rest
          if (activeInHand s1).length ≤ 1 then
            some (s1, script1, pr ++ [pid], false)
          else
            bettingLoop fuel s1 q1 script1 (pr ++ [pid])

/-- Embedding of `betting_round(stage)`: reset the table's current bet and
every seat's street wager to 0, then, when two or more contenders exist,
seed the queue with the contenders in seat-join order and run the loop.
(The `stage` argument only feeds elided message texts.) -/
def betReset (s : GameState) : GameState :=
  { s with currentBet := 0,
           players := s.players.map (fun p => { p with bet := 0 }) }

def betting_round (fuel : Nat) (_stage : String) (s : GameState)
    (script : List Incoming) :
    Option (GameState × List Incoming × List Nat × Bool) :=
  if (activeInHand (betReset s)).length ≤ 1 then some (betReset s, script, [], true)
  else bettingLoop fuel (betReset s) (activeInHand (betReset s)) script []

/-!
## Round resolution (`resolve_winner`)
-/

/-- Embedding of the showdown scoring loop of `resolve_winner`: each
contender's `(score, pid)` with the description, via
`evaluate_hand(p["hand"] + game.community)`.  `none` when any evaluation
raises. -/
def showdownResults (s : GameState) : Option (List (Nat × Nat × String)) :=
  (activeInHand s).mapM
    (fun pid =>
      match evaluate_hand ((getP s pid).hand ++ s.community) with
      | none => none
      | some sc => some (sc.1, pid, sc.2))

/-- Zero the pot (`game.pot = 0`), leaving everything else in place. -/
def clearPot (s : GameState) : GameState := { s with pot := 0 }

/-- Credit `split` chips to each listed seat (the `for _, pid, _ in winners`
loop). -/
def creditAll (s : GameState) (winners : List Nat) (split : Nat) : GameState :=
  winners.foldl
    (fun st pid => setP st pid { getP st pid with chips := (getP st pid).chips + split })
    s

/-- Embedding of `resolve_winner()` from `server.py`.  Zero contenders: the
pot is discarded and zeroed.  One contender: it is credited the whole pot
(reason string as in the source).  Otherwise: score every contender, send
each its `SHOWDOWN`, broadcast the `REVEAL`, sort the results by score
descending (Python's stable `list.sort(key=…, reverse=True)`), split the
pot by floor division among the top-score holders, and zero the pot. -/
def resolve_winner (s : GameState) : Option (GameState × List OutMsg) :=
  match activeInHand s with
  | [] => some (clearPot s, [.info (.table none)])
  | [w] =>
    some (clearPot
            (setP s w { getP s w with chips := (getP s w).chips + s.pot }),
          [.winner w "Last player standing" s.pot])
  | _ :: _ :: _ =>
    match showdownResults s with
    | none => none
    | some results =>
      let sorted := results.insertionSort (fun a b => a.1 ≥ b.1)
      let top := (sorted.headD (0, 0, "")).1
      let winners := sorted.filter (fun r => r.1 == top)
      let split := s.pot / winners.length
      some (clearPot (creditAll s (winners.map (fun r => r.2.1)) split),
            (activeInHand s).map (.showdown ·) ++ [.reveal] ++
              [.winnerSplit (winners.map (fun r => r.2.1)) s.pot
                (decide (1 < winners.length))])

/-!
## Round orchestration (`start_round`)
-/

/-- Python `deck.pop()`: removes and returns the last element. -/
def popEnd (d : List Card) : Option (Card × List Card) :=
  match d.getLast? with
  | none => none
  | some c => some (c, d.dropLast)

/-- The dealing loop of `start_round`: each active seat receives
`[deck.pop(), deck.pop()]` as its fresh hole cards, with `folded` and `bet`
reset.  `none` embeds deck exhaustion (`IndexError`). -/
def dealLoop (s : GameState) : List Nat → Option GameState
  | [] => some s
  | pid :: rest =>
    if (getP s pid).active then
      match popEnd s.deck with
      | none => none
      | some (c1, d1) =>
        match popEnd d1 with
        | none => none
        | some (c2, d2) =>
          dealLoop { setP s pid
                       { getP s pid with hand := [c1, c2], folded := false, bet := 0 }
                     with deck := d2 } rest
    else dealLoop s rest

/-- The blind-posting step for one seat: an active seat with at least the
10-chip blind moves 10 chips from its stack into the pot (and onto its
street wager); any other seat posts nothing. -/
def blindStep (s : GameState) (pid : Nat) : GameState :=
  let p := getP s pid
  if p.active && 10 ≤ p.chips then
    { setP s pid { p with chips := p.chips - 10, bet := p.bet + 10 } with
       pot := s.pot + 10 }
  else s

/-- The whole blind loop of `start_round`, followed by
`game.current_bet = blind`. -/
def postBlinds (s : GameState) : GameState :=
  { (List.range s.players.length).foldl blindStep s with currentBet := 10 }

/-- Reveal `n` community cards: `game.community.append(game.deck.pop())`,
`n` times. -/
def dealCommunity (s : GameState) : Nat → Option GameState
  | 0 => some s
  | n + 1 =>
    match popEnd s.deck with
    | none => none
    | some (c, d) =>
      dealCommunity { s with deck := d, community := s.community ++ [c] } n

/-- The street sequence of `start_round` after the blinds: Pre-Flop betting,
then — as long as two or more contenders remain — the Flop (3 cards), Turn
(1 card) and River (1 card), each followed by a betting street.  Each
`resolve_winner(); return` early exit in the source is reached exactly when
this function stops before the later streets. -/
def runStreets (fuel : Nat) (s : GameState) (script : List Incoming) :
    Option (GameState × List Incoming) :=
  match betting_round fuel "Pre-Flop" s script with
  | none => none
  | some (s1, rest1, _, _) =>
    if (activeInHand s1).length < 2 then some (s1, rest1)
    else
      match dealCommunity s1 3 with
      | none => none
      | some s1c =>
        match betting_round fuel "Flop" s1c rest1 with
        | none => none
        | some (s2, rest2, _, _) =>
          if (activeInHand s2).length < 2 then some (s2, rest2)
          else
            match dealCommunity s2 1 with
            | none => none
            | some s2c =>
              match betting_round fuel "Turn" s2c rest2 with
              | none => none
              | some (s3, rest3, _, _) =>
                if (activeInHand s3).length < 2 then some (s3, rest3)
                else
                  match dealCommunity s3 1 with
                  | none => none
                  | some s3c =>
                    match betting_round fuel "River" s3c rest3 with
                    | none => none
                    | some (s4, rest4, _, _) => some (s4, rest4)

/-- Embedding of `start_round(round_num, total)`: install a fresh deck (the
random shuffle is modelled by taking the shuffled deck as an argument),
zero the pot, current bet and community cards, deal two hole cards to every
active seat, post the blinds, run the streets, and resolve the winner. -/
def start_round (fuel : Nat) (s : GameState) (newDeck : List Card)
    (script : List Incoming) : Option (GameState × List Incoming) :=
  let s1 : GameState :=
    { s with deck := newDeck, pot := 0, currentBet := 0, community := [] }
  match dealLoop s1 (List.range s1.players.length) with
  | none => none
  | some s2 =>
    match runStreets fuel (postBlinds s2) script with
    | none => none
    | some (sMid, rest) =>
      match resolve_winner sMid with
      | none => none
      | some (sEnd, _) => some (sEnd, rest)

/-- Embedding of `reset_for_new_game()`: chips back to the starting stack,
hands cleared, `folded` and street wagers reset (the `active` flag is not
touched). -/
def reset_for_new_game (s : GameState) (startingChips : Nat) : GameState :=
  { s with
    players := s.players.map (fun p =>
      { p with chips := startingChips, hand := [], folded := false, bet := 0 }) }

/-!
## Specification-level resolution notions

Used to state claims about resolution without reference to the resolver's
internal sort: a contender's true score, the maximal score over the
contenders, and the set of winning seats.
-/

/-- Numeric score of the evaluator on a seat's hole cards plus the current
community cards (`0` when the evaluator raises; the claims always supply
the totality hypothesis making that case vacuous). -/
def trueScore (s : GameState) (pid : Nat) : Nat :=
  ((evaluate_hand ((getP s pid).hand ++ s.community)).map Prod.fst).getD 0

/-- Category label of the evaluator on a seat's cards (same convention). -/
def trueDesc (s : GameState) (pid : Nat) : String :=
  ((evaluate_hand ((getP s pid).hand ++ s.community)).map Prod.snd).getD ""

/-- The maximal true score over the contenders. -/
def topScore (s : GameState) : Nat :=
  listMax ((activeInHand s).map (trueScore s))

/-- The contenders holding the maximal true score, in seat-join order. -/
def winnersOf (s : GameState) : List Nat :=
  (activeInHand s).filter (fun pid => trueScore s pid == topScore s)

instance : IsTotal (Nat × Nat × String) (fun a b => a.1 ≥ b.1) :=
  ⟨fun a b => le_total b.1 a.1⟩

instance : IsTrans (Nat × Nat × String) (fun a b => a.1 ≥ b.1) :=
  ⟨fun _ _ _ h1 h2 => le_trans h2 h1⟩

/-- The sorted multiplicity list `cnt` computed inside `score_five`, as a
function of the rank list: the counts of the distinct ranks, sorted
descending. -/
def cntOf (R : List Nat) : List Nat :=
  sortDesc (R.dedup.map (fun r => R.count r))

/-- The decision chain of `score_five`, abstracted over its four computed
ingredients (flush flag, straight flag, maximal rank, multiplicity list).
`score_five` is definitionally this chain applied to the values it computes
from the sorted rank list; the lemmas below use it to transport the chain
onto the unsorted rank list. -/
def scoreChain (flush straight : Bool) (maxR : Nat) (C : List Nat) :
    Option (Nat × String) :=
  if flush && straight && (maxR == 12) then some (9, "Royal Flush")
  else if flush && straight then some (8, "Straight Flush")
  else
    match C.get? 0 with
    | none => none
    | some c0 =>
      if c0 == 4 then some (7, "Four of a Kind")
      else if c0 == 3 then
        match C.get? 1 with
        | none => none
        | some c1 =>
          if c1 == 2 then some (6, "Full House")
          else if flush then some (5, "Flush")
          else if straight then some (4, "Straight")
          else some (3, "Three of a Kind")
      else if flush then some (5, "Flush")
      else if straight then some (4, "Straight")
      else if c0 == 2 then
        match C.get? 1 with
        | none => none
        | some c1 =>
          if c1 == 2 then some (2, "Two Pair")
          else some (1, "One Pair")
      else some (0, "High Card")


/-- A two-seat table with fresh 1000-chip stacks, used to instantiate the
round-level statements on a concrete game. -/
def demoP (nm : String) : Player :=
  { name := nm, chips := 1000, hand := [], folded := false, bet := 0, active := true, isHost := false }

/-- The concrete two-player state for the instantiations. -/
def demoS : GameState :=
  { players := [demoP "a", demoP "b"], deck := [], pot := 0, currentBet := 0, community := [] }

/-- A full 52-card deck in rank-major order (the shuffle is a parameter of
`start_round`, so any order is a legitimate instance). -/
def demoDeck : List Card := (List.range 52).map (fun i => ⟨i / 4, i % 4⟩)

/-- A plain FOLD action message. -/
def foldMsg : ActionMsg := { action := some "fold" }


/-- A single-contender table: seat 1 has folded, the pot holds 50. -/
def demoSingleS : GameState :=
  { players := [demoP "a", { demoP "b" with folded := true }], deck := [],
    pot := 50, currentBet := 0, community := [] }

/-- A no-contender table: both seats have folded, the pot holds 30. -/
def demoEmptyS : GameState :=
  { players := [{ demoP "a" with folded := true },
                { demoP "b" with folded := true }], deck := [],
    pot := 30, currentBet := 0, community := [] }

/-- A two-contender showdown table: both seats hold hole cards, five
community cards are out, the pot holds 100. -/
def demoShowS : GameState :=
  { players := [{ demoP "a" with hand := [⟨12, 0⟩, ⟨11, 0⟩] },
                { demoP "b" with hand := [⟨2, 1⟩, ⟨3, 2⟩] }], deck := [],
    pot := 100, currentBet := 0,
    community := [⟨0, 0⟩, ⟨5, 1⟩, ⟨7, 2⟩, ⟨9, 3⟩, ⟨10, 0⟩] }


/-- A BET/RAISE message whose claimed score (1000000) overstates any hand. -/
def cheatMsg : ActionMsg :=
  { typeField := none, action := some "raise", amount := some 5,
    claimedScore := some 1000000 }

/-- A BET message with the non-positive claimed score 0. -/
def noCheatMsg : ActionMsg :=
  { typeField := none, action := some "bet", amount := some 5,
    claimedScore := some 0 }


/-- A plain 50-chip RAISE with no claimed score. -/
def raiseMsg : ActionMsg :=
  { typeField := none, action := some "raise", amount := some 50,
    claimedScore := none }

/-- A plain CHECK action message. -/
def checkMsg : ActionMsg := { action := some "check" }

-- ===== definitions end =====

/-!
## Supporting lemmas: sorting, maxima, minima, duplicate counts
-/

theorem sortDesc_perm (l : List Nat) : (sortDesc l).Perm l :=
  List.perm_insertionSort _ l

theorem sortDesc_sorted (l : List Nat) : List.Sorted (· ≥ ·) (sortDesc l) :=
  List.sorted_insertionSort _ l

theorem sortDesc_eq_of_perm {l l' : List Nat} (h : l.Perm l') :
    sortDesc l = sortDesc l' := by
  refine List.eq_of_perm_of_sorted ?_ (sortDesc_sorted l) (sortDesc_sorted l')
  exact ((sortDesc_perm l).trans h).trans (sortDesc_perm l').symm

theorem le_listMax {l : List Nat} {x : Nat} (h : x ∈ l) : x ≤ listMax l := by
  induction l with
  | nil => simp at h
  | cons a t ih =>
    rcases List.mem_cons.1 h with rfl | hx
    · exact Nat.le_max_left _ _
    · exact le_trans (ih hx) (Nat.le_max_right _ _)

theorem listMax_le {l : List Nat} {b : Nat} (h : ∀ y ∈ l, y ≤ b) : listMax l ≤ b := by
  induction l with
  | nil => simp [listMax]
  | cons a t ih =>
    have h1 := h a (List.mem_cons_self a t)
    have h2 := ih (fun y hy => h y (List.mem_cons_of_mem _ hy))
    exact Nat.max_le.2 ⟨h1, h2⟩

theorem listMax_mem {l : List Nat} (h : l ≠ []) : listMax l ∈ l := by
  induction l with
  | nil => simp at h
  | cons a t ih =>
    cases t with
    | nil => simp [listMax]
    | cons b u =>
      have hmem := ih (by simp)
      show Nat.max a (listMax (b :: u)) ∈ a :: b :: u
      rcases Nat.le_total a (listMax (b :: u)) with hc | hc
      · have hM : Nat.max a (listMax (b :: u)) = listMax (b :: u) :=
          Nat.max_eq_right hc
        rw [hM]; exact List.mem_cons_of_mem _ hmem
      · have hM : Nat.max a (listMax (b :: u)) = a := Nat.max_eq_left hc
        rw [hM]; exact List.mem_cons_self _ _

theorem listMax_eq_of_perm {l l' : List Nat} (h : l.Perm l') :
    listMax l = listMax l' := by
  refine Nat.le_antisymm ?_ ?_
  · exact listMax_le (fun y hy => le_listMax (h.mem_iff.1 hy))
  · exact listMax_le (fun y hy => le_listMax (h.mem_iff.2 hy))

theorem foldr_min_mem (xs : List Nat) (x : Nat) :
    xs.foldr Nat.min x ∈ x :: xs := by
  induction xs with
  | nil => simp
  | cons z zs ih =>
    simp only [List.foldr]
    rcases Nat.le_total z (List.foldr Nat.min x zs) with hc | hc
    · have hM : Nat.min z (List.foldr Nat.min x zs) = z := Nat.min_eq_left hc
      rw [hM]; simp
    · have hM : Nat.min z (List.foldr Nat.min x zs) = List.foldr Nat.min x zs :=
        Nat.min_eq_right hc
      rw [hM]
      rcases List.mem_cons.1 ih with h1 | h1
      · simp [h1]
      · simp [List.mem_cons_of_mem, h1]

theorem foldr_min_le (xs : List Nat) (x : Nat) :
    ∀ y ∈ x :: xs, xs.foldr Nat.min x ≤ y := by
  induction xs with
  | nil =>
    intro y hy
    simp only [List.mem_singleton] at hy
    simp [hy]
  | cons z zs ih =>
    intro y hy
    simp only [List.foldr]
    rcases List.mem_cons.1 hy with rfl | hy'
    · exact le_trans (Nat.min_le_right _ _) (ih y (by simp))
    · rcases List.mem_cons.1 hy' with rfl | hy''
      · exact Nat.min_le_left _ _
      · exact le_trans (Nat.min_le_right _ _) (ih y (List.mem_cons_of_mem _ hy''))

theorem listMin_mem {l : List Nat} (h : l ≠ []) : listMin l ∈ l := by
  cases l with
  | nil => simp at h
  | cons x xs => exact foldr_min_mem xs x

theorem listMin_le {l : List Nat} {y : Nat} (h : y ∈ l) : listMin l ≤ y := by
  cases l with
  | nil => simp at h
  | cons x xs => exact foldr_min_le xs x y h

theorem listMin_eq_of_perm {l l' : List Nat} (hne : l ≠ []) (h : l.Perm l') :
    listMin l = listMin l' := by
  have hne' : l' ≠ [] := by
    intro hc; rw [hc] at h; simp [List.perm_nil] at h; exact hne h
  refine Nat.le_antisymm ?_ ?_
  · exact listMin_le (h.mem_iff.2 (listMin_mem hne'))
  · exact listMin_le (h.mem_iff.1 (listMin_mem hne))

theorem dedup_length_eq_one {α : Type} [DecidableEq α] {l : List α}
    (hne : l ≠ []) : l.dedup.length = 1 ↔ ∃ a, ∀ x ∈ l, x = a := by
  constructor
  · intro h1
    rcases hd : l.dedup with _ | ⟨a, t⟩
    · rw [hd] at h1; simp at h1
    · rw [hd] at h1
      have ht : t = [] := by
        simpa using h1
      refine ⟨a, fun x hx => ?_⟩
      have : x ∈ l.dedup := List.mem_dedup.2 hx
      rw [hd, ht] at this
      simpa using this
  · rintro ⟨a, ha⟩
    have hmem : a ∈ l := by
      cases l with
      | nil => simp at hne
      | cons b t => have := ha b (by simp); subst this; simp
    have hd : l.dedup = [a] := by
      have hnd := l.nodup_dedup
      have hsub : ∀ x ∈ l.dedup, x = a := fun x hx => ha x (List.mem_dedup.1 hx)
      rcases he : l.dedup with _ | ⟨b, t⟩
      · exfalso
        have : a ∈ l.dedup := List.mem_dedup.2 hmem
        rw [he] at this; simp at this
      · rw [he] at hsub hnd
        have hb : b = a := hsub b (by simp)
        subst hb
        cases t with
        | nil => rfl
        | cons c u =>
          exfalso
          have hc : c = b := hsub c (by simp)
          rw [List.nodup_cons] at hnd
          exact hnd.1 (by simp [hc])
    rw [hd]; rfl

theorem dedup_length_eq_self {l : List Nat} :
    l.dedup.length = l.length ↔ l.Nodup := by
  constructor
  · intro h
    have hsub : l.dedup.Sublist l := l.dedup_sublist
    have : l.dedup = l := hsub.eq_of_length h
    rw [← this]; exact l.nodup_dedup
  · intro h
    rw [List.dedup_eq_self.2 h]

theorem count_add_count_le (l : List Nat) {a b : Nat} (hab : a ≠ b) :
    l.count a + l.count b ≤ l.length := by
  induction l with
  | nil => simp
  | cons x t ih =>
    by_cases hxa : x = a
    · subst hxa
      rw [List.count_cons_self, List.count_cons_of_ne (by omega)]
      simp only [List.length_cons]; omega
    · by_cases hxb : x = b
      · subst hxb
        rw [List.count_cons_of_ne (by omega), List.count_cons_self]
        simp only [List.length_cons]; omega
      · rw [List.count_cons_of_ne (by intro hc; exact hxa hc.symm),
            List.count_cons_of_ne (by intro hc; exact hxb hc.symm)]
        simp only [List.length_cons]; omega

theorem count_map_eq_countP (f : α → Nat) (l : List α) (v : Nat) :
    (l.map f).count v = l.countP (fun x => f x == v) := by
  induction l with
  | nil => simp
  | cons x t ih =>
    simp only [List.map_cons, List.count_cons, List.countP_cons, ih]

theorem two_le_length_of_two_mem {α : Type} {l : List α} {a b : α}
    (hab : a ≠ b) (ha : a ∈ l) (hb : b ∈ l) : 2 ≤ l.length := by
  cases l with
  | nil => simp at ha
  | cons x t =>
    cases t with
    | nil =>
      simp at ha hb
      exact absurd (ha.trans hb.symm) hab
    | cons y u => simp only [List.length_cons]; omega

theorem exists_pair_of_two_le_countP {α : Type} {l : List α} {p : α → Bool}
    (hnd : l.Nodup) (h : 2 ≤ l.countP p) :
    ∃ a b, a ≠ b ∧ a ∈ l ∧ b ∈ l ∧ p a = true ∧ p b = true := by
  rw [List.countP_eq_length_filter] at h
  have hfn : (l.filter p).Nodup := hnd.filter p
  rcases hf : l.filter p with _ | ⟨a, t⟩
  · rw [hf] at h; simp at h
  · cases t with
    | nil => rw [hf] at h; simp at h
    | cons b u =>
      rw [hf] at hfn
      have hab : a ≠ b := by
        rw [List.nodup_cons] at hfn
        intro hc; exact hfn.1 (by simp [hc])
      have hamem : a ∈ l.filter p := by rw [hf]; simp
      have hbmem : b ∈ l.filter p := by rw [hf]; simp
      exact ⟨a, b, hab, (List.mem_filter.1 hamem).1, (List.mem_filter.1 hbmem).1,
             (List.mem_filter.1 hamem).2, (List.mem_filter.1 hbmem).2⟩

theorem two_le_countP_of_pair {α : Type} {l : List α} {p : α → Bool} {a b : α}
    (hab : a ≠ b) (ha : a ∈ l) (hb : b ∈ l)
    (hpa : p a = true) (hpb : p b = true) : 2 ≤ l.countP p := by
  rw [List.countP_eq_length_filter]
  exact two_le_length_of_two_mem hab (List.mem_filter.2 ⟨ha, hpa⟩)
    (List.mem_filter.2 ⟨hb, hpb⟩)

/-!
## Supporting lemmas: the multiplicity list of `score_five`
-/

theorem cnt_eq_cntOf (R : List Nat) :
    sortDesc (R.dedup.map (fun r => R.count r)) = cntOf R := rfl

theorem mem_cntOf {R : List Nat} {x : Nat} :
    x ∈ cntOf R ↔ ∃ r ∈ R, R.count r = x := by
  unfold cntOf
  rw [(sortDesc_perm _).mem_iff]
  simp only [List.mem_map, List.mem_dedup]

theorem cntOf_sorted (R : List Nat) : List.Sorted (· ≥ ·) (cntOf R) :=
  sortDesc_sorted _

theorem cntOf_ne_nil {R : List Nat} (h : R ≠ []) : cntOf R ≠ [] := by
  cases R with
  | nil => simp at h
  | cons a t =>
    intro hc
    have hmem : (a :: t).count a ∈ cntOf (a :: t) := mem_cntOf.2 ⟨a, by simp, rfl⟩
    rw [hc] at hmem
    simp at hmem

theorem cntOf_count_eq (R : List Nat) (v : Nat) :
    (cntOf R).count v = R.dedup.countP (fun r => R.count r == v) := by
  unfold cntOf
  rw [(sortDesc_perm _).count_eq, count_map_eq_countP]

theorem cntOf_congr_perm {R R' : List Nat} (h : R.Perm R') :
    cntOf R = cntOf R' := by
  unfold cntOf
  have hcnt : ∀ r, R.count r = R'.count r := fun r => h.count_eq r
  have hmap : R.dedup.map (fun r => R.count r) = R.dedup.map (fun r => R'.count r) :=
    List.map_congr_left (fun r _ => hcnt r)
  rw [hmap]
  exact sortDesc_eq_of_perm (h.dedup.map _)

theorem cntOf_mem_pos {R : List Nat} {x : Nat} (h : x ∈ cntOf R) : 1 ≤ x := by
  rcases mem_cntOf.1 h with ⟨r, hr, hc⟩
  rw [← hc]
  exact List.count_pos_iff.2 hr

theorem cntOf_mem_le_length {R : List Nat} {x : Nat} (h : x ∈ cntOf R) :
    x ≤ R.length := by
  rcases mem_cntOf.1 h with ⟨r, _, hc⟩
  rw [← hc]
  exact List.count_le_length r R

theorem cntOf_two_le_length {R : List Nat} {r : Nat} (hr : r ∈ R)
    (hlt : R.count r < R.length) : 2 ≤ (cntOf R).length := by
  have hne : ¬ (∀ b ∈ R, r = b) := by
    intro hall
    have := List.count_eq_length.2 hall
    omega
  push_neg at hne
  rcases hne with ⟨t, ht, hrt⟩
  have h1 : r ∈ R.dedup := List.mem_dedup.2 hr
  have h2 : t ∈ R.dedup := List.mem_dedup.2 ht
  have hlen2 : 2 ≤ R.dedup.length := two_le_length_of_two_mem hrt h1 h2
  unfold cntOf
  rw [(sortDesc_perm _).length_eq, List.length_map]
  exact hlen2

theorem cntOf_head_mem {R : List Nat} {c0 : Nat} {ctl : List Nat}
    (hC : cntOf R = c0 :: ctl) : c0 ∈ cntOf R := by
  rw [hC]; simp

theorem cntOf_le_head {R : List Nat} {c0 : Nat} {ctl : List Nat}
    (hC : cntOf R = c0 :: ctl) : ∀ x ∈ cntOf R, x ≤ c0 := by
  have hs := cntOf_sorted R
  rw [hC, List.sorted_cons] at hs
  intro x hx
  rw [hC] at hx
  rcases List.mem_cons.1 hx with rfl | hx'
  · exact le_refl x
  · exact hs.1 x hx'

theorem cntOf_le_second {R : List Nat} {c0 c1 : Nat} {ctl2 : List Nat}
    (hC : cntOf R = c0 :: c1 :: ctl2) :
    ∀ x ∈ cntOf R, x = c0 ∨ x ≤ c1 := by
  have hs := cntOf_sorted R
  rw [hC, List.sorted_cons] at hs
  have hs2 := hs.2
  rw [List.sorted_cons] at hs2
  intro x hx
  rw [hC] at hx
  rcases List.mem_cons.1 hx with rfl | hx'
  · exact Or.inl rfl
  · rcases List.mem_cons.1 hx' with rfl | hx''
    · exact Or.inr (le_refl x)
    · exact Or.inr (hs2.1 x hx'')

theorem le_head_of_exists_count {R : List Nat} {c0 k : Nat} {ctl : List Nat}
    (hC : cntOf R = c0 :: ctl) (h : ∃ r ∈ R, R.count r = k) : k ≤ c0 :=
  cntOf_le_head hC k (mem_cntOf.2 h)

theorem head_count_exists {R : List Nat} {c0 : Nat} {ctl : List Nat}
    (hC : cntOf R = c0 :: ctl) : ∃ r ∈ R, R.count r = c0 :=
  mem_cntOf.1 (cntOf_head_mem hC)

theorem all_counts_eq_length {R : List Nat} {r : Nat}
    (h : R.count r = R.length) :
    ∀ k, (∃ t ∈ R, R.count t = k) → k = R.length := by
  intro k hk
  rcases hk with ⟨t, ht, hct⟩
  have hall := List.count_eq_length.1 h
  have : r = t := hall t ht
  rw [← this] at hct
  omega

theorem counts_sum_le {R : List Nat} {j k : Nat}
    (hj : ∃ r ∈ R, R.count r = j) (hk : ∃ r ∈ R, R.count r = k)
    (hjk : j ≠ k) : j + k ≤ R.length := by
  rcases hj with ⟨r, _, hcr⟩
  rcases hk with ⟨t, _, hct⟩
  have hrt : r ≠ t := by
    intro hc; rw [hc] at hcr; omega
  have := count_add_count_le R hrt
  omega

theorem two_ranks_of_cnt_count {R : List Nat} {v : Nat}
    (h : 2 ≤ (cntOf R).count v) :
    ∃ r s, r ≠ s ∧ r ∈ R ∧ s ∈ R ∧ R.count r = v ∧ R.count s = v := by
  rw [cntOf_count_eq] at h
  rcases exists_pair_of_two_le_countP R.nodup_dedup h with
    ⟨a, b, hab, ha, hb, hpa, hpb⟩
  have hva : R.count a = v := by simpa using hpa
  have hvb : R.count b = v := by simpa using hpb
  exact ⟨a, b, hab, List.mem_dedup.1 ha, List.mem_dedup.1 hb, hva, hvb⟩

theorem cnt_count_of_two_ranks {R : List Nat} {v r s : Nat}
    (hrs : r ≠ s) (hr : r ∈ R) (hs : s ∈ R)
    (hcr : R.count r = v) (hcs : R.count s = v) :
    2 ≤ (cntOf R).count v := by
  rw [cntOf_count_eq]
  exact two_le_countP_of_pair hrs (List.mem_dedup.2 hr) (List.mem_dedup.2 hs)
    (by simp [hcr]) (by simp [hcs])

theorem mem_tail_of_two_le_count {R : List Nat} {v c0 : Nat} {ctl : List Nat}
    (hC : cntOf R = c0 :: ctl) (h : 2 ≤ (cntOf R).count v) : v ∈ ctl := by
  rw [hC] at h
  simp only [List.count_cons] at h
  have h1 : 1 ≤ ctl.count v := by
    by_cases hv : c0 = v
    · simp only [hv, beq_self_eq_true, if_true] at h
      omega
    · rw [if_neg (by simpa using hv)] at h
      omega
  exact List.count_pos_iff.1 h1

theorem cntOf_second_ge {R : List Nat} {c0 c1 : Nat} {ctl2 : List Nat}
    (hC : cntOf R = c0 :: c1 :: ctl2) : ∀ x ∈ c1 :: ctl2, x ≤ c1 := by
  have hs := cntOf_sorted R
  rw [hC, List.sorted_cons] at hs
  have hs2 := hs.2
  rw [List.sorted_cons] at hs2
  intro x hx
  rcases List.mem_cons.1 hx with rfl | hx'
  · exact le_refl x
  · exact hs2.1 x hx'

theorem score_five_eq_scoreChain (h : List Card) :
    score_five h =
      scoreChain ((h.map Card.suit).dedup.length == 1)
        ((sortDesc (h.map Card.rank)).dedup.length == 5 &&
          (listMax (sortDesc (h.map Card.rank)) -
            listMin (sortDesc (h.map Card.rank)) == 4))
        (listMax (sortDesc (h.map Card.rank)))
        (cntOf (sortDesc (h.map Card.rank))) := rfl

theorem score_five_eq_chain {h : List Card} (hne : h.map Card.rank ≠ []) :
    score_five h =
      scoreChain ((h.map Card.suit).dedup.length == 1)
        ((h.map Card.rank).dedup.length == 5 &&
          (listMax (h.map Card.rank) - listMin (h.map Card.rank) == 4))
        (listMax (h.map Card.rank))
        (cntOf (h.map Card.rank)) := by
  rw [score_five_eq_scoreChain]
  have hper : (sortDesc (h.map Card.rank)).Perm (h.map Card.rank) :=
    sortDesc_perm _
  have hsne : sortDesc (h.map Card.rank) ≠ [] := by
    intro hc
    have := hper.length_eq
    rw [hc] at this
    cases hmr : h.map Card.rank with
    | nil => exact hne hmr
    | cons a t => rw [hmr] at this; simp at this
  rw [listMax_eq_of_perm hper, listMin_eq_of_perm hsne hper,
      hper.dedup.length_eq, cntOf_congr_perm hper]

theorem specAllOneSuit_iff {h : List Card} (hne : h ≠ []) :
    specAllOneSuit h = true ↔ (h.map Card.suit).dedup.length = 1 := by
  cases h with
  | nil => simp at hne
  | cons c cs =>
    rw [dedup_length_eq_one (by simp)]
    unfold specAllOneSuit
    simp only [List.all_eq_true, beq_iff_eq]
    constructor
    · intro hall
      refine ⟨c.suit, fun x hx => ?_⟩
      simp only [List.map_cons, List.mem_cons, List.mem_map] at hx
      rcases hx with rfl | ⟨d, hd, rfl⟩
      · rfl
      · exact hall d hd
    · rintro ⟨a, ha⟩
      intro d hd
      have h1 : d.suit = a := ha d.suit (by
        simp only [List.map_cons, List.mem_cons, List.mem_map]
        exact Or.inr ⟨d, hd, rfl⟩)
      have h2 : c.suit = a := ha c.suit (by simp)
      rw [h1, h2]

theorem specStraight_iff {h : List Card} (hlen : h.length = 5) :
    specStraight h = true ↔
      ((h.map Card.rank).dedup.length = 5 ∧
        listMax (h.map Card.rank) - listMin (h.map Card.rank) = 4) := by
  unfold specStraight
  simp only [Bool.and_eq_true, decide_eq_true_eq, beq_iff_eq]
  have hml : (h.map Card.rank).length = 5 := by simp [hlen]
  constructor
  · rintro ⟨⟨hnd, _⟩, hd⟩
    refine ⟨?_, hd⟩
    rw [← hml] at *
    exact dedup_length_eq_self.2 hnd
  · rintro ⟨hd5, hd⟩
    refine ⟨⟨?_, hlen⟩, hd⟩
    exact dedup_length_eq_self.1 (by rw [hd5, hml])

theorem specHasCount_iff (h : List Card) (k : Nat) :
    specHasCount h k = true ↔
      ∃ r ∈ h.map Card.rank, (h.map Card.rank).count r = k := by
  unfold specHasCount
  simp [List.any_eq_true]

theorem specTwoPair_iff (h : List Card) :
    specTwoPair h = true ↔
      ∃ r ∈ h.map Card.rank, ∃ t ∈ h.map Card.rank, t ≠ r ∧
        (h.map Card.rank).count r = 2 ∧ (h.map Card.rank).count t = 2 := by
  unfold specTwoPair
  simp only [List.any_eq_true, Bool.and_eq_true, beq_iff_eq, Bool.not_eq_eq_eq_not,
    Bool.not_true, beq_eq_false_iff_ne, ne_eq]
  constructor
  · rintro ⟨r, hr, hcr, t, ht, hne, hct⟩
    exact ⟨r, hr, t, ht, hne, hcr, hct⟩
  · rintro ⟨r, hr, t, ht, hne, hcr, hct⟩
    exact ⟨r, hr, hcr, t, ht, hne, hct⟩

theorem bool_eq_of_true_iff {a b : Bool} (h : a = true ↔ b = true) : a = b := by
  cases a <;> cases b <;> simp_all

theorem score_five_eq_spec {h : List Card} (hlen : h.length = 5) :
    score_five h = some (spec_score h) := by
  have hne : h ≠ [] := by intro hc; rw [hc] at hlen; simp at hlen
  have hRlen : (h.map Card.rank).length = 5 := by simp [hlen]
  have hRne : h.map Card.rank ≠ [] := by
    intro hc; rw [hc] at hRlen; simp at hRlen
  rw [score_five_eq_chain hRne]
  have hf : ((h.map Card.suit).dedup.length == 1) = specAllOneSuit h := by
    apply bool_eq_of_true_iff
    rw [beq_iff_eq, specAllOneSuit_iff hne]
  have hst : ((h.map Card.rank).dedup.length == 5 &&
      (listMax (h.map Card.rank) - listMin (h.map Card.rank) == 4)) =
      specStraight h := by
    apply bool_eq_of_true_iff
    rw [specStraight_iff hlen]
    simp [Bool.and_eq_true, beq_iff_eq]
  rw [hf, hst]
  obtain ⟨c0, ctl, hC⟩ : ∃ c0 ctl, cntOf (h.map Card.rank) = c0 :: ctl := by
    rcases hcc : cntOf (h.map Card.rank) with _ | ⟨c0, ctl⟩
    · exact absurd hcc (cntOf_ne_nil hRne)
    · exact ⟨c0, ctl, rfl⟩
  have hc0mem := head_count_exists hC
  have hc0le : c0 ≤ 5 := by
    have := cntOf_mem_le_length (cntOf_head_mem hC)
    omega
  have hc0pos : 1 ≤ c0 := cntOf_mem_pos (cntOf_head_mem hC)
  have hgt : ∀ k, c0 < k → specHasCount h k = false := by
    intro k hk
    by_contra hcon
    have hkt : specHasCount h k = true := by
      revert hcon; cases specHasCount h k <;> simp
    have hex := (specHasCount_iff h k).1 hkt
    have := le_head_of_exists_count hC hex
    omega
  have hsum : ∀ j k, j ≠ k → specHasCount h j = true → specHasCount h k = true →
      j + k ≤ 5 := by
    intro j k hjk hj hk
    have := counts_sum_le ((specHasCount_iff h j).1 hj) ((specHasCount_iff h k).1 hk) hjk
    omega
  have hPc0 : specHasCount h c0 = true := (specHasCount_iff h c0).2 hc0mem
  have htp_imp : specTwoPair h = true → specHasCount h 2 = true := by
    intro htp
    rcases (specTwoPair_iff h).1 htp with ⟨r, hr, t, ht, hne2, hcr, hct⟩
    exact (specHasCount_iff h 2).2 ⟨r, hr, hcr⟩
  rw [hC]
  by_cases hg1 : (specAllOneSuit h && specStraight h &&
      (listMax (h.map Card.rank) == 12)) = true
  · simp [scoreChain, spec_score, hg1]
  · have hg1f : (specAllOneSuit h && specStraight h &&
        (listMax (h.map Card.rank) == 12)) = false := by
      revert hg1; cases (specAllOneSuit h && specStraight h &&
        (listMax (h.map Card.rank) == 12)) <;> simp
    by_cases hg2 : (specAllOneSuit h && specStraight h) = true
    · simp [scoreChain, spec_score, hg1f, hg2]
      split <;> rfl
    · have hg2f : (specAllOneSuit h && specStraight h) = false := by
        revert hg2; cases (specAllOneSuit h && specStraight h) <;> simp
      have hbt : ∀ b : Bool, ¬ b = true → b = false := by
        intro b hb; cases b
        · rfl
        · exact absurd rfl hb
      simp only [scoreChain, spec_score, hg1f, hg2f, Bool.false_and,
        Bool.false_eq_true, if_false, List.get?_cons_zero, List.get?_cons_succ]
      interval_cases c0
      · -- c0 = 1: every multiplicity is 1
        have hp2 : specHasCount h 2 = false := hgt 2 (by omega)
        have hp3 : specHasCount h 3 = false := hgt 3 (by omega)
        have hp4 : specHasCount h 4 = false := hgt 4 (by omega)
        have htp : specTwoPair h = false := by
          cases htpv : specTwoPair h
          · rfl
          · exact absurd (htp_imp htpv) (by simp [hp2])
        by_cases hA : specAllOneSuit h = true <;> by_cases hB : specStraight h = true <;>
          simp [hA, hB, hbt _ , hp2, hp3, hp4, htp]
      · -- c0 = 2
        have hp3 : specHasCount h 3 = false := hgt 3 (by omega)
        have hp4 : specHasCount h 4 = false := hgt 4 (by omega)
        have hp2 : specHasCount h 2 = true := hPc0
        obtain ⟨c1, ctl2, rfl⟩ : ∃ c1 ctl2, ctl = c1 :: ctl2 := by
          rcases hc0mem with ⟨r, hr, hcr⟩
          have h2 := cntOf_two_le_length hr (by omega)
          rw [hC] at h2
          cases ctl with
          | nil => simp at h2
          | cons c1 ctl2 => exact ⟨c1, ctl2, rfl⟩
        by_cases hc1 : c1 = 2
        · have htp : specTwoPair h = true := by
            subst hc1
            have hcc : 2 ≤ (cntOf (h.map Card.rank)).count 2 := by
              rw [hC]; simp [List.count_cons]
            rcases two_ranks_of_cnt_count hcc with ⟨r, t, hrt, hr, ht, hcr, hct⟩
            exact (specTwoPair_iff h).2 ⟨r, hr, t, ht, Ne.symm hrt, hcr, hct⟩
          subst hc1
          by_cases hA : specAllOneSuit h = true <;>
            by_cases hB : specStraight h = true <;>
              simp [hA, hB, hp2, hp3, hp4, htp]
        · have htp : specTwoPair h = false := by
            cases htpv : specTwoPair h
            · rfl
            · exfalso
              rcases (specTwoPair_iff h).1 htpv with ⟨r, hr, t, ht, hrt, hcr, hct⟩
              have hcc := cnt_count_of_two_ranks (fun he => hrt he.symm) hr ht hcr hct
              have h2m := mem_tail_of_two_le_count hC hcc
              have hle := cntOf_second_ge hC 2 h2m
              have hc1le : c1 ≤ 2 := cntOf_le_head hC c1 (by rw [hC]; simp)
              omega
          by_cases hA : specAllOneSuit h = true <;>
            by_cases hB : specStraight h = true <;>
              simp [hA, hB, hp2, hp3, hp4, htp, hc1]
      · -- c0 = 3
        have hp4 : specHasCount h 4 = false := hgt 4 (by omega)
        have hp3 : specHasCount h 3 = true := hPc0
        obtain ⟨c1, ctl2, rfl⟩ : ∃ c1 ctl2, ctl = c1 :: ctl2 := by
          rcases hc0mem with ⟨r, hr, hcr⟩
          have h2 := cntOf_two_le_length hr (by omega)
          rw [hC] at h2
          cases ctl with
          | nil => simp at h2
          | cons c1 ctl2 => exact ⟨c1, ctl2, rfl⟩
        have hc1le : c1 ≤ 3 := cntOf_le_head hC c1 (by rw [hC]; simp)
        have hc1ne3 : c1 ≠ 3 := by
          intro he
          have hcc : 2 ≤ (cntOf (h.map Card.rank)).count 3 := by
            rw [hC, he]; simp [List.count_cons]
          rcases two_ranks_of_cnt_count hcc with ⟨r, t, hrt, hr, ht, hcr, hct⟩
          have := count_add_count_le (h.map Card.rank) hrt
          omega
        by_cases hc1 : c1 = 2
        · have hp2 : specHasCount h 2 = true := by
            apply (specHasCount_iff h 2).2
            have hm : c1 ∈ cntOf (h.map Card.rank) := by rw [hC]; simp
            rcases mem_cntOf.1 hm with ⟨r, hr, hcr⟩
            exact ⟨r, hr, by omega⟩
          simp [hp2, hp3, hp4, hc1]
        · have hp2 : specHasCount h 2 = false := by
            cases hv : specHasCount h 2
            · rfl
            · exfalso
              have hex := (specHasCount_iff h 2).1 hv
              have h2mem : 2 ∈ cntOf (h.map Card.rank) := mem_cntOf.2 hex
              rcases cntOf_le_second hC 2 h2mem with he | hle
              · omega
              · omega
          have htp : specTwoPair h = false := by
            cases htpv : specTwoPair h
            · rfl
            · exact absurd (htp_imp htpv) (by simp [hp2])
          by_cases hA : specAllOneSuit h = true <;>
            by_cases hB : specStraight h = true <;>
              simp [hA, hB, hp2, hp3, hp4, htp, hc1]
      · -- c0 = 4
        have hp4 : specHasCount h 4 = true := hPc0
        simp [hp4]
      · -- c0 = 5: all five ranks are equal
        have hall : ∀ k, (∃ t ∈ h.map Card.rank, (h.map Card.rank).count t = k) →
            k = 5 := by
          rcases hc0mem with ⟨r, hr, hcr⟩
          intro k hk
          have := @all_counts_eq_length (h.map Card.rank) r (by omega) k hk
          omega
        have hp4 : specHasCount h 4 = false := by
          cases hv : specHasCount h 4
          · rfl
          · exact absurd (hall 4 ((specHasCount_iff h 4).1 hv)) (by omega)
        have hp3 : specHasCount h 3 = false := by
          cases hv : specHasCount h 3
          · rfl
          · exact absurd (hall 3 ((specHasCount_iff h 3).1 hv)) (by omega)
        have hp2 : specHasCount h 2 = false := by
          cases hv : specHasCount h 2
          · rfl
          · exact absurd (hall 2 ((specHasCount_iff h 2).1 hv)) (by omega)
        have htp : specTwoPair h = false := by
          cases htpv : specTwoPair h
          · rfl
          · exact absurd (htp_imp htpv) (by simp [hp2])
        by_cases hA : specAllOneSuit h = true <;>
          by_cases hB : specStraight h = true <;>
            simp [hA, hB, hp2, hp3, hp4, htp]


/-!
## Supporting lemmas: combinations, `mapM`, and the fold maximum
-/

theorem length_of_mem_combinations {α : Type} :
    ∀ {n : Nat} {l S : List α}, S ∈ combinations n l → S.length = n := by
  intro n
  induction n using Nat.strong_induction_on with
  | _ n ihn =>
    intro l
    induction l with
    | nil =>
      intro S hS
      cases n with
      | zero => simp [combinations] at hS; simp [hS]
      | succ m => simp [combinations] at hS
    | cons x xs ihl =>
      intro S hS
      cases n with
      | zero => simp [combinations] at hS; simp [hS]
      | succ m =>
        simp only [combinations, List.mem_append, List.mem_map] at hS
        rcases hS with ⟨T, hT, rfl⟩ | hS
        · have := ihn m (by omega) hT
          simp [this]
        · exact ihl hS

theorem combinations_nil_of_lt {α : Type} :
    ∀ {n : Nat} {l : List α}, l.length < n → combinations n l = [] := by
  intro n
  induction n using Nat.strong_induction_on with
  | _ n ihn =>
    intro l
    induction l with
    | nil =>
      intro hl
      cases n with
      | zero => simp at hl
      | succ m => simp [combinations]
    | cons x xs ihl =>
      intro hl
      cases n with
      | zero => simp at hl
      | succ m =>
        simp only [combinations]
        rw [ihn m (by omega) (by simp at hl; omega), ihl (by simp at hl ⊢; omega)]
        simp

theorem combinations_self {α : Type} :
    ∀ {l : List α}, combinations l.length l = [l] := by
  intro l
  induction l with
  | nil => simp [combinations]
  | cons x xs ih =>
    simp only [List.length_cons, combinations]
    rw [ih, combinations_nil_of_lt (by omega)]
    simp

theorem combinations_ne_nil {α : Type} :
    ∀ {n : Nat} {l : List α}, n ≤ l.length → combinations n l ≠ [] := by
  intro n
  induction n using Nat.strong_induction_on with
  | _ n ihn =>
    intro l
    induction l with
    | nil =>
      intro hn
      cases n with
      | zero => simp [combinations]
      | succ m => simp at hn
    | cons x xs ihl =>
      intro hn
      cases n with
      | zero => simp [combinations]
      | succ m =>
        simp only [combinations]
        intro hc
        rcases List.append_eq_nil.1 hc with ⟨h1, _⟩
        have : combinations m xs ≠ [] := ihn m (by omega) (by simp at hn; omega)
        rw [List.map_eq_nil_iff] at h1
        exact this h1

theorem mapM_eq_some_of_forall {α β : Type} {f : α → Option β} :
    ∀ {l : List α}, (∀ a ∈ l, ∃ y, f a = some y) → ∃ ys, l.mapM f = some ys := by
  intro l
  induction l with
  | nil => intro _; exact ⟨[], rfl⟩
  | cons a t ih =>
    intro hall
    rcases hall a (by simp) with ⟨y, hy⟩
    rcases ih (fun b hb => hall b (List.mem_cons_of_mem _ hb)) with ⟨ys, hys⟩
    refine ⟨y :: ys, ?_⟩
    rw [List.mapM_cons, hy, hys]
    rfl

theorem mem_of_mapM_some {α β : Type} {f : α → Option β} :
    ∀ {l : List α} {ys : List β} {a : α},
      l.mapM f = some ys → a ∈ l → ∃ y ∈ ys, f a = some y := by
  intro l
  induction l with
  | nil => intro ys a _ ha; simp at ha
  | cons b t ih =>
    intro ys a hmap ha
    rw [List.mapM_cons] at hmap
    cases hfb : f b with
    | none => rw [hfb] at hmap; simp at hmap
    | some y =>
      rw [hfb] at hmap
      cases hmt : t.mapM f with
      | none => rw [hmt] at hmap; simp at hmap
      | some ts =>
        rw [hmt] at hmap
        simp at hmap
        rcases List.mem_cons.1 ha with rfl | ha'
        · exact ⟨y, by rw [← hmap]; simp, hfb⟩
        · rcases ih hmt ha' with ⟨z, hz, hfz⟩
          exact ⟨z, by rw [← hmap]; simp [hz], hfz⟩

theorem le_maxByScore :
    ∀ (xs : List (Nat × String)) (x : Nat × String),
      x.1 ≤ (maxByScore x xs).1 ∧ ∀ y ∈ xs, y.1 ≤ (maxByScore x xs).1 := by
  intro xs
  induction xs with
  | nil => intro x; exact ⟨le_refl _, by simp⟩
  | cons z zs ih =>
    intro x
    have hstep : maxByScore x (z :: zs) = maxByScore (if x.1 < z.1 then z else x) zs := rfl
    rcases ih (if x.1 < z.1 then z else x) with ⟨h1, h2⟩
    constructor
    · rw [hstep]
      refine le_trans ?_ h1
      by_cases hc : x.1 < z.1
      · rw [if_pos hc]; omega
      · rw [if_neg hc]
    · intro y hy
      rw [hstep]
      rcases List.mem_cons.1 hy with rfl | hy'
      · refine le_trans ?_ h1
        by_cases hc : x.1 < y.1
        · rw [if_pos hc]
        · rw [if_neg hc]; omega
      · exact h2 y hy'

theorem evaluate_hand_five {cards : List Card} (h5 : cards.length = 5) :
    evaluate_hand cards = score_five cards := by
  unfold evaluate_hand
  rw [if_pos (by omega)]

theorem evaluate_hand_subset_le {cards : List Card}
    (hlen : cards.length = 5 ∨ cards.length = 6 ∨ cards.length = 7) :
    ∀ S ∈ combinations 5 cards, ∃ p q, evaluate_hand cards = some p ∧
      evaluate_hand S = some q ∧ q.1 ≤ p.1 := by
  intro S hS
  have hS5 : S.length = 5 := length_of_mem_combinations hS
  have hqS : evaluate_hand S = some (spec_score S) := by
    rw [evaluate_hand_five hS5]
    exact score_five_eq_spec hS5
  rcases hlen with h5 | h67
  · have hcomb : combinations 5 cards = [cards] := by
      rw [← h5]; exact combinations_self
    rw [hcomb] at hS
    have hSc : S = cards := by simpa using hS
    subst hSc
    refine ⟨spec_score S, spec_score S, ?_, hqS, le_refl _⟩
    rw [evaluate_hand_five hS5]
    exact score_five_eq_spec hS5
  · have hgt5 : ¬ cards.length ≤ 5 := by omega
    have hall : ∀ T ∈ combinations 5 cards, ∃ v, score_five T = some v :=
      fun T hT => ⟨spec_score T, score_five_eq_spec (length_of_mem_combinations hT)⟩
    rcases mapM_eq_some_of_forall hall with ⟨ys, hys⟩
    rcases mem_of_mapM_some hys hS with ⟨q, hqmem, hfq⟩
    cases ys with
    | nil => simp at hqmem
    | cons y0 ytl =>
      have hev : evaluate_hand cards = some (maxByScore y0 ytl) := by
        unfold evaluate_hand
        rw [if_neg hgt5, hys]
      refine ⟨maxByScore y0 ytl, q, hev, ?_, ?_⟩
      · rw [evaluate_hand_five hS5]; exact hfq
      · rcases List.mem_cons.1 hqmem with rfl | hq'
        · exact (le_maxByScore ytl q).1
        · exact (le_maxByScore ytl y0).2 q hq'

/-!
## Claims about the hand evaluator (C2, C3, C10)
-/

/-- C2: For every 5-card hand, `score_five` returns the specification's
category ladder with numeric score 9 down to 0 (Royal Flush … High Card),
where a flush means all five cards share one suit, a straight means five
distinct ranks whose maximum minus minimum equals 4 (no special case for
the Ace-low wheel A-2-3-4-5, witnessed by the second conjunct evaluating
the offsuit wheel to High Card), and a Royal Flush is a flush and straight
whose highest rank is Ace. -/
theorem C2_score_five_matches_spec_ladder :
    (∀ h : List Card, h.length = 5 → score_five h = some (spec_score h)) ∧
      score_five [⟨12, 0⟩, ⟨0, 1⟩, ⟨1, 2⟩, ⟨2, 3⟩, ⟨3, 0⟩] =
        some (0, "High Card") :=
  ⟨fun _ hlen => score_five_eq_spec hlen, by decide⟩

/-- Witness for C2 at a concrete full house. -/
theorem C2_witness_full_house :
    score_five [⟨3, 0⟩, ⟨3, 1⟩, ⟨3, 2⟩, ⟨7, 3⟩, ⟨7, 0⟩] =
      some (spec_score [⟨3, 0⟩, ⟨3, 1⟩, ⟨3, 2⟩, ⟨7, 3⟩, ⟨7, 0⟩]) :=
  C2_score_five_matches_spec_ladder.1 _ (by decide)

/-- C3: For every card set of size 5, 6 or 7, the score of `evaluate_hand`
dominates the score of `evaluate_hand` on any 5-card subset, and on a
5-card input the 7-card and 5-card evaluators agree. -/
theorem C3_evaluate_dominates_subsets :
    ∀ cards : List Card, (cards.length = 5 ∨ cards.length = 6 ∨ cards.length = 7) →
      (∀ S ∈ combinations 5 cards, ∃ p q, evaluate_hand cards = some p ∧
        evaluate_hand S = some q ∧ q.1 ≤ p.1) ∧
      (cards.length = 5 → evaluate_hand cards = score_five cards) :=
  fun _ hlen => ⟨evaluate_hand_subset_le hlen, fun h5 => evaluate_hand_five h5⟩

/-- Witness for C3: a 6-card set and one of its 5-card subsets. -/
theorem C3_witness_six_cards :
    ∃ p q,
      evaluate_hand [⟨12, 0⟩, ⟨11, 0⟩, ⟨10, 0⟩, ⟨9, 0⟩, ⟨8, 0⟩, ⟨2, 1⟩] = some p ∧
      evaluate_hand [⟨12, 0⟩, ⟨11, 0⟩, ⟨10, 0⟩, ⟨9, 0⟩, ⟨2, 1⟩] = some q ∧
      q.1 ≤ p.1 :=
  (C3_evaluate_dominates_subsets _ (by decide)).1 _ (by decide)

/-- C10 counterexample: the claim asserts that two hole cards of equal rank
evaluate to `(1, "One Pair")`; in fact `score_five` on a 2-card pocket pair
reads `cnt[1]` of the singleton multiplicity list `[2]`, which raises
`IndexError` in Python (embedded as `none`), so the evaluation produces no
score at all. -/
theorem C10_counterexample_pocket_pair :
    evaluate_hand [⟨0, 0⟩, ⟨0, 1⟩] ≠ some (1, "One Pair") ∧
      evaluate_hand [⟨0, 0⟩, ⟨0, 1⟩] = none := by decide

/-- C10 (amended): `evaluate_hand` accepts fewer than 5 cards and classifies
them directly through `score_five`, and the cheat detector invokes it on the
2 hole cards alone pre-flop (empty community).  Two suited hole cards of
different ranks evaluate as `(5, "Flush")`; but two hole cards of equal rank
(necessarily of different suits) make the pair-count indexing of
`score_five` fail — `IndexError` in Python, `none` here — so a pre-flop
`cheat_check` on a pocket pair crashes instead of comparing the claim
against `(1, "One Pair")`. -/
theorem C10_amended_preflop_evaluation :
    (∀ hand : List Card, hand.length ≤ 5 → evaluate_hand hand = score_five hand) ∧
    (∀ (ra rb : Fin 13) (sa : Fin 4), ra ≠ rb →
      evaluate_hand [⟨ra.val, sa.val⟩, ⟨rb.val, sa.val⟩] = some (5, "Flush")) ∧
    (∀ (ra : Fin 13) (sa sb : Fin 4), sa ≠ sb →
      evaluate_hand [⟨ra.val, sa.val⟩, ⟨ra.val, sb.val⟩] = none) ∧
    (∀ (s : GameState) (pid : Nat) (claimed : Int),
      s.community = [] → evaluate_hand ((getP s pid).hand) = none →
      cheat_check s pid claimed = none) := by
  refine ⟨?_, ?_, ?_, ?_⟩
  · intro hand hlen
    unfold evaluate_hand
    rw [if_pos hlen]
  · decide
  · decide
  · intro s pid claimed hcomm hev
    simp only [cheat_check, hcomm, List.append_nil, hev]

/-- Witness for C10's amended theorem: suited king-three evaluates as a
flush, pocket deuces crash, and `cheat_check` on those pocket deuces with an
empty board crashes. -/
theorem C10_amended_witness :
    evaluate_hand [⟨11, 2⟩, ⟨1, 2⟩] = some (5, "Flush") ∧
      evaluate_hand [⟨0, 0⟩, ⟨0, 2⟩] = none ∧
      cheat_check
        { players := [{ name := "p", chips := 100, hand := [⟨0, 0⟩, ⟨0, 2⟩],
                        folded := false, bet := 0, active := true,
                        isHost := true }],
          deck := [], pot := 0, currentBet := 0, community := [] } 0 3 = none :=
  ⟨C10_amended_preflop_evaluation.2.1 11 1 2 (by decide),
   C10_amended_preflop_evaluation.2.2.1 0 0 2 (by decide),
   C10_amended_preflop_evaluation.2.2.2 _ 0 3 rfl (by decide)⟩

/-!
## Supporting lemmas: seat access and the chip sum
-/

theorem list_getD_set_self {α : Type} [Inhabited α] :
    ∀ (l : List α) (i : Nat) (p : α), i < l.length →
      (l.set i p).getD i default = p := by
  intro l
  induction l with
  | nil => intro i p h; simp at h
  | cons x t ih =>
    intro i p h
    cases i with
    | zero => rfl
    | succ n =>
      simp only [List.set]
      exact ih n p (by simp at h; omega)

theorem list_getD_set_other {α : Type} [Inhabited α] :
    ∀ (l : List α) (i j : Nat) (p : α), j ≠ i →
      (l.set i p).getD j default = l.getD j default := by
  intro l
  induction l with
  | nil => intro i j p _; simp
  | cons x t ih =>
    intro i j p hne
    cases i with
    | zero =>
      cases j with
      | zero => exact absurd rfl hne
      | succ m => rfl
    | succ n =>
      cases j with
      | zero => rfl
      | succ m =>
        simp only [List.set]
        exact ih n m p (by omega)

theorem sum_map_set_chips :
    ∀ (l : List Player) (i : Nat) (p : Player), i < l.length →
      ((l.set i p).map Player.chips).sum + (l.getD i default).chips =
        (l.map Player.chips).sum + p.chips := by
  intro l
  induction l with
  | nil => intro i p h; simp at h
  | cons x t ih =>
    intro i p h
    cases i with
    | zero =>
      simp only [List.set, List.map_cons, List.sum_cons, List.getD]
      simp
      omega
    | succ n =>
      simp only [List.set, List.map_cons, List.sum_cons, List.getD]
      have := ih n p (by simp at h; omega)
      simp only [List.getD] at this
      simp at this ⊢
      omega

theorem setP_players_length (s : GameState) (pid : Nat) (p : Player) :
    (setP s pid p).players.length = s.players.length := by
  simp [setP]

theorem getP_setP_self {s : GameState} {pid : Nat} (p : Player)
    (h : pid < s.players.length) : getP (setP s pid p) pid = p :=
  list_getD_set_self s.players pid p h

theorem getP_setP_other {s : GameState} {pid q : Nat} (p : Player)
    (h : q ≠ pid) : getP (setP s pid p) q = getP s q :=
  list_getD_set_other s.players pid q p h

theorem chipSum_setP {s : GameState} {pid : Nat} (p : Player)
    (h : pid < s.players.length) :
    chipSum (setP s pid p) + (getP s pid).chips = chipSum s + p.chips :=
  sum_map_set_chips s.players pid p h

theorem getP_payToPot_self {s : GameState} {pid : Nat} (amt : Nat)
    (h : pid < s.players.length) :
    getP (payToPot s pid amt) pid =
      { getP s pid with chips := (getP s pid).chips - amt,
                        bet := (getP s pid).bet + amt } :=
  getP_setP_self _ h

theorem getP_payToPot_other {s : GameState} {pid q : Nat} (amt : Nat)
    (h : q ≠ pid) : getP (payToPot s pid amt) q = getP s q :=
  getP_setP_other _ h

theorem payToPot_pot (s : GameState) (pid amt : Nat) :
    (payToPot s pid amt).pot = s.pot + amt := rfl

theorem payToPot_currentBet (s : GameState) (pid amt : Nat) :
    (payToPot s pid amt).currentBet = s.currentBet := rfl

theorem payToPot_community (s : GameState) (pid amt : Nat) :
    (payToPot s pid amt).community = s.community := rfl

theorem payToPot_length (s : GameState) (pid amt : Nat) :
    (payToPot s pid amt).players.length = s.players.length := by
  show (s.players.set pid _).length = s.players.length
  simp

theorem chipSum_payToPot {s : GameState} {pid : Nat} (amt : Nat)
    (hpid : pid < s.players.length) (hle : amt ≤ (getP s pid).chips) :
    chipSum (payToPot s pid amt) + amt = chipSum s := by
  have h := chipSum_setP
    { getP s pid with chips := (getP s pid).chips - amt,
                      bet := (getP s pid).bet + amt } hpid
  dsimp only at h
  unfold payToPot chipSum setP
  unfold chipSum setP at h
  dsimp only at h ⊢
  omega

theorem getP_applyBetRaise_self {s : GameState} {pid : Nat} (total : Nat)
    (h : pid < s.players.length) :
    getP (applyBetRaise s pid total) pid =
      { getP s pid with chips := (getP s pid).chips - total,
                        bet := (getP s pid).bet + total } :=
  getP_setP_self _ h

theorem getP_applyBetRaise_other {s : GameState} {pid q : Nat} (total : Nat)
    (h : q ≠ pid) : getP (applyBetRaise s pid total) q = getP s q :=
  getP_setP_other _ h

theorem applyBetRaise_pot (s : GameState) (pid total : Nat) :
    (applyBetRaise s pid total).pot = s.pot + total := rfl

theorem applyBetRaise_currentBet (s : GameState) (pid total : Nat) :
    (applyBetRaise s pid total).currentBet = (getP s pid).bet + total := rfl

theorem applyBetRaise_community (s : GameState) (pid total : Nat) :
    (applyBetRaise s pid total).community = s.community := rfl

theorem applyBetRaise_length (s : GameState) (pid total : Nat) :
    (applyBetRaise s pid total).players.length = s.players.length := by
  show (s.players.set pid _).length = s.players.length
  simp

theorem chipSum_applyBetRaise {s : GameState} {pid : Nat} (total : Nat)
    (hpid : pid < s.players.length) (hle : total ≤ (getP s pid).chips) :
    chipSum (applyBetRaise s pid total) + total = chipSum s := by
  have h := chipSum_setP
    { getP s pid with chips := (getP s pid).chips - total,
                      bet := (getP s pid).bet + total } hpid
  dsimp only at h
  unfold applyBetRaise payToPot chipSum setP
  unfold chipSum setP at h
  dsimp only at h ⊢
  omega

/-!
## Claims about single-action semantics (C6, C7)
-/

/-- C6: Whenever a seat's street wager is less than the table's
current-street wager, a CHECK by that seat is rejected: an error message is
sent to that seat only, no game state is mutated (the state component is
returned unchanged), and the seat is re-prompted (the prompt loop consumes
the message and prompts the same seat again); when the seat's street wager
equals the current-street wager (call amount 0) the CHECK is accepted with
no chip movement. -/
theorem C6_check_rejected_iff_behind :
    ∀ (s : GameState) (pid : Nat) (data : ActionMsg),
      normalizeVerb data.action = "CHECK" →
      ((getP s pid).bet < s.currentBet →
        handle_action s pid data = (s, .reprompt, [.error pid]) ∧
        (∀ rest : List Incoming, data.typeField ≠ some "HOST_DECISION_RESPONSE" →
          promptLoop s pid (.msg data :: rest) = promptLoop s pid rest)) ∧
      ((getP s pid).bet = s.currentBet →
        handle_action s pid data = (s, .done, [.info (.table none)])) := by
  intro s pid data hA
  constructor
  · intro hlt
    have hca : 0 < s.currentBet - (getP s pid).bet := by omega
    have heq : handle_action s pid data = (s, .reprompt, [.error pid]) := by
      simp only [handle_action]
      rw [hA]
      rw [if_neg (by decide), if_pos rfl, if_pos hca]
    refine ⟨heq, fun rest hhd => ?_⟩
    simp only [promptLoop]
    rw [if_neg hhd, heq]
  · intro heqb
    have hca : ¬ 0 < s.currentBet - (getP s pid).bet := by omega
    simp only [handle_action]
    rw [hA]
    rw [if_neg (by decide), if_pos rfl, if_neg hca]

/-- Witness for C6 at a concrete behind-the-bet state. -/
theorem C6_witness :
    handle_action
      { players := [{ name := "a", chips := 50, hand := [], folded := false,
                      bet := 0, active := true, isHost := true }],
        deck := [], pot := 10, currentBet := 20, community := [] } 0
      { action := some "check" } =
      ({ players := [{ name := "a", chips := 50, hand := [], folded := false,
                       bet := 0, active := true, isHost := true }],
         deck := [], pot := 10, currentBet := 20, community := [] },
       .reprompt, [.error 0]) :=
  ((C6_check_rejected_iff_behind _ 0 _ (by decide)).1 (by decide)).1

/-- C7: A CALL moves exactly `min(current_bet - seat_wager, seat.chips)`
chips from the calling seat's stack into the pot — capped at the seat's
stack, so an all-in call is permitted even if it leaves the call short —
and when the call amount is already 0 the CALL degrades to a check with no
chip movement. -/
theorem C7_call_moves_min_capped :
    ∀ (s : GameState) (pid : Nat) (data : ActionMsg),
      pid < s.players.length →
      normalizeVerb data.action = "CALL" →
      (s.currentBet - (getP s pid).bet = 0 →
        handle_action s pid data = (s, .done, [.info (.table none)])) ∧
      (0 < s.currentBet - (getP s pid).bet →
        ∃ s1, handle_action s pid data = (s1, .done, [.info (.table none)]) ∧
          (getP s pid).chips =
            (getP s1 pid).chips +
              min (s.currentBet - (getP s pid).bet) (getP s pid).chips ∧
          s1.pot = s.pot +
              min (s.currentBet - (getP s pid).bet) (getP s pid).chips ∧
          (getP s1 pid).bet = (getP s pid).bet +
              min (s.currentBet - (getP s pid).bet) (getP s pid).chips ∧
          (∀ q, q ≠ pid → getP s1 q = getP s q) ∧
          s1.currentBet = s.currentBet ∧ s1.community = s.community) := by
  intro s pid data hpid hA
  constructor
  · intro hca
    simp only [handle_action]
    rw [hA]
    rw [if_neg (by decide), if_neg (by decide), if_pos rfl, if_pos hca]
  · intro hca
    have hne : ¬ (s.currentBet - (getP s pid).bet = 0) := by omega
    refine ⟨payToPot s pid
        (min (s.currentBet - (getP s pid).bet) (getP s pid).chips),
      ?_, ?_, payToPot_pot s pid _, ?_, fun q hq => getP_payToPot_other _ hq,
      payToPot_currentBet s pid _, payToPot_community s pid _⟩
    · simp only [handle_action]
      rw [hA]
      rw [if_neg (by decide), if_neg (by decide), if_pos rfl, if_neg hne]
    · rw [getP_payToPot_self _ hpid]
      have hmin : min (s.currentBet - (getP s pid).bet) (getP s pid).chips ≤
          (getP s pid).chips := Nat.min_le_right _ _
      dsimp only
      omega
    · rw [getP_payToPot_self _ hpid]

/-- Witness for C7 at a concrete all-in short call: call amount 30 but only
20 chips in the stack, so exactly 20 chips move. -/
theorem C7_witness_all_in_call :
    ∃ s1, handle_action
      { players := [{ name := "a", chips := 20, hand := [], folded := false,
                      bet := 0, active := true, isHost := true },
                    { name := "b", chips := 100, hand := [], folded := false,
                      bet := 30, active := true, isHost := false }],
        deck := [], pot := 30, currentBet := 30, community := [] } 0
      { action := some "CALL" } = (s1, .done, [.info (.table none)]) ∧
      20 = (getP s1 0).chips + min 30 20 ∧
      s1.pot = 30 + min 30 20 ∧
      (getP s1 0).bet = 0 + min 30 20 ∧
      (∀ q, q ≠ 0 → getP s1 q =
        getP { players := [{ name := "a", chips := 20, hand := [],
                             folded := false, bet := 0, active := true,
                             isHost := true },
                           { name := "b", chips := 100, hand := [],
                             folded := false, bet := 30, active := true,
                             isHost := false }],
               deck := [], pot := 30, currentBet := 30, community := [] } q) ∧
      s1.currentBet = 30 ∧ s1.community = [] :=
  (C7_call_moves_min_capped _ 0 _ (by decide) (by decide)).2 (by decide)

/-!
## Frame and conservation facts for one action (shared by C1, C5, C8)
-/

theorem cheat_check_spec {s : GameState} {pid : Nat} {claimed : Int}
    {s1 : GameState} {fired : Bool} {msgs : List OutMsg}
    (hpid : pid < s.players.length)
    (h : cheat_check s pid claimed = some (s1, fired, msgs)) :
    s1.players.length = s.players.length ∧
    chipSum s1 = chipSum s ∧ s1.pot = s.pot ∧ s1.currentBet = s.currentBet ∧
    (∀ q, q ≠ pid → getP s1 q = getP s q) ∧
    ((getP s1 pid).active = true → (getP s pid).active = true) ∧
    ((getP s1 pid).folded = false → (getP s pid).folded = false) ∧
    (getP s1 pid).chips = (getP s pid).chips ∧
    (getP s1 pid).bet = (getP s pid).bet ∧
    s1.community = s.community ∧ s1.deck = s.deck := by
  simp only [cheat_check] at h
  split at h
  · exact absurd h (by simp)
  · split at h
    · simp only [Option.some.injEq, Prod.mk.injEq] at h
      obtain ⟨rfl, -, -⟩ := h
      have hself := getP_setP_self
        { getP s pid with active := false, folded := true } hpid
      have hcs := chipSum_setP
        { getP s pid with active := false, folded := true } hpid
      dsimp only at hcs
      refine ⟨by simp [setP], by omega, rfl, rfl,
        fun q hq => getP_setP_other _ hq, ?_, ?_, ?_, ?_, rfl, rfl⟩
      · rw [hself]; intro hc; simp at hc
      · rw [hself]; intro hc; simp at hc
      · rw [hself]
      · rw [hself]
    · simp only [Option.some.injEq, Prod.mk.injEq] at h
      obtain ⟨rfl, -, -⟩ := h
      exact ⟨rfl, rfl, rfl, rfl, fun q _ => rfl, fun hq => hq, fun hq => hq,
        rfl, rfl, rfl, rfl⟩



theorem chipSum_setP_same_chips {s : GameState} {pid : Nat} (p : Player)
    (hpid : pid < s.players.length) (hch : p.chips = (getP s pid).chips) :
    chipSum (setP s pid p) = chipSum s := by
  have h := chipSum_setP p hpid
  omega

theorem handle_action_spec (s : GameState) (pid : Nat) (data : ActionMsg)
    (hpid : pid < s.players.length) :
    (handle_action s pid data).1.players.length = s.players.length ∧
    chipSum (handle_action s pid data).1 + (handle_action s pid data).1.pot =
      chipSum s + s.pot ∧
    (∀ q, q ≠ pid → getP (handle_action s pid data).1 q = getP s q) ∧
    ((getP (handle_action s pid data).1 pid).active = true →
      (getP s pid).active = true) ∧
    ((getP (handle_action s pid data).1 pid).folded = false →
      (getP s pid).folded = false) ∧
    (handle_action s pid data).1.community = s.community ∧
    (handle_action s pid data).1.deck = s.deck := by
  have htriv : ∀ X : GameState × ActionResult × List OutMsg, X.1 = s →
      X.1.players.length = s.players.length ∧
      chipSum X.1 + X.1.pot = chipSum s + s.pot ∧
      (∀ q, q ≠ pid → getP X.1 q = getP s q) ∧
      ((getP X.1 pid).active = true → (getP s pid).active = true) ∧
      ((getP X.1 pid).folded = false → (getP s pid).folded = false) ∧
      X.1.community = s.community ∧ X.1.deck = s.deck := by
    intro X hX
    rw [hX]
    exact ⟨rfl, rfl, fun q _ => rfl, fun hq => hq, fun hq => hq, rfl, rfl⟩
  have hflag : ∀ (act fol : Bool),
      (act = true → (getP s pid).active = true) →
      (fol = false → (getP s pid).folded = false) →
      ∀ X : GameState × ActionResult × List OutMsg,
      X.1 = setP s pid { getP s pid with active := act, folded := fol } →
      X.1.players.length = s.players.length ∧
      chipSum X.1 + X.1.pot = chipSum s + s.pot ∧
      (∀ q, q ≠ pid → getP X.1 q = getP s q) ∧
      ((getP X.1 pid).active = true → (getP s pid).active = true) ∧
      ((getP X.1 pid).folded = false → (getP s pid).folded = false) ∧
      X.1.community = s.community ∧ X.1.deck = s.deck := by
    intro act fol hact hfol X hX
    rw [hX]
    have hself := getP_setP_self
      { getP s pid with active := act, folded := fol } hpid
    have hcs : chipSum (setP s pid
        { getP s pid with active := act, folded := fol }) = chipSum s :=
      chipSum_setP_same_chips _ hpid rfl
    refine ⟨by simp [setP], ?_, fun q hq => getP_setP_other _ hq, ?_, ?_,
      rfl, rfl⟩
    · show chipSum _ + s.pot = chipSum s + s.pot
      rw [hcs]
    · rw [hself]; intro hc; exact hact hc
    · rw [hself]; intro hc; exact hfol hc
  have hpay : ∀ amt : Nat, amt ≤ (getP s pid).chips →
      ∀ X : GameState × ActionResult × List OutMsg,
      X.1 = payToPot s pid amt →
      X.1.players.length = s.players.length ∧
      chipSum X.1 + X.1.pot = chipSum s + s.pot ∧
      (∀ q, q ≠ pid → getP X.1 q = getP s q) ∧
      ((getP X.1 pid).active = true → (getP s pid).active = true) ∧
      ((getP X.1 pid).folded = false → (getP s pid).folded = false) ∧
      X.1.community = s.community ∧ X.1.deck = s.deck := by
    intro amt hamt X hX
    rw [hX]
    have hself := getP_payToPot_self amt hpid
    have hcs := chipSum_payToPot amt hpid hamt
    have hpot := payToPot_pot s pid amt
    refine ⟨payToPot_length s pid _, by omega,
      fun q hq => getP_payToPot_other _ hq, ?_, ?_,
      payToPot_community s pid _, rfl⟩
    · rw [hself]; intro hc; exact hc
    · rw [hself]; intro hc; exact hc
  have hbet : ∀ total : Nat, total ≤ (getP s pid).chips →
      ∀ X : GameState × ActionResult × List OutMsg,
      X.1 = applyBetRaise s pid total →
      X.1.players.length = s.players.length ∧
      chipSum X.1 + X.1.pot = chipSum s + s.pot ∧
      (∀ q, q ≠ pid → getP X.1 q = getP s q) ∧
      ((getP X.1 pid).active = true → (getP s pid).active = true) ∧
      ((getP X.1 pid).folded = false → (getP s pid).folded = false) ∧
      X.1.community = s.community ∧ X.1.deck = s.deck := by
    intro total htot X hX
    rw [hX]
    have hself := getP_applyBetRaise_self total hpid
    have hcs := chipSum_applyBetRaise total hpid htot
    have hpot := applyBetRaise_pot s pid total
    refine ⟨applyBetRaise_length s pid _, by omega,
      fun q hq => getP_applyBetRaise_other _ hq, ?_, ?_,
      applyBetRaise_community s pid _, rfl⟩
    · rw [hself]; intro hc; exact hc
    · rw [hself]; intro hc; exact hc
  simp only [handle_action]
  split
  · -- FOLD
    exact hflag (getP s pid).active true (fun hc => hc) (by simp) _ rfl
  · split
    · -- CHECK
      split
      · exact htriv _ rfl
      · exact htriv _ rfl
    · split
      · -- CALL
        split
        · exact htriv _ rfl
        · exact hpay _ (Nat.min_le_right _ _) _ rfl
      · split
        · -- BET / RAISE
          split
          · exact htriv _ rfl
          · split
            · exact htriv _ rfl
            · split
              · exact htriv _ rfl
              · rename_i a hsome ha hcanafford
                have haff : s.currentBet - (getP s pid).bet + a.toNat ≤
                    (getP s pid).chips := by omega
                split
                · split
                  · exact htriv _ rfl
                  · rename_i heqc
                    have hc := cheat_check_spec hpid heqc
                    refine ⟨hc.1, ?_, hc.2.2.2.2.1, hc.2.2.2.2.2.1,
                      hc.2.2.2.2.2.2.1, hc.2.2.2.2.2.2.2.2.2.1,
                      hc.2.2.2.2.2.2.2.2.2.2⟩
                    have h1 := hc.2.1
                    have h2 := hc.2.2.1
                    dsimp only
                    omega
                  · exact hbet _ haff _ rfl
                · exact hbet _ haff _ rfl
        · split
          · -- QUIT
            exact hflag false true (by simp) (by simp) _ rfl
          · -- unknown verb
            exact htriv _ rfl

theorem cheat_check_pass {s : GameState} {pid : Nat} {claimed : Int}
    {real : Nat × String}
    (hreal : evaluate_hand ((getP s pid).hand ++ s.community) = some real)
    (hle : claimed ≤ (real.1 : Int)) :
    cheat_check s pid claimed = some (s, false, []) := by
  simp only [cheat_check, hreal]
  rw [if_neg (by omega)]

theorem cheat_check_fire {s : GameState} {pid : Nat} {claimed : Int}
    {real : Nat × String}
    (hreal : evaluate_hand ((getP s pid).hand ++ s.community) = some real)
    (hlt : (real.1 : Int) < claimed) :
    cheat_check s pid claimed =
      some (setP s pid { getP s pid with active := false, folded := true },
            true, [.kicked pid, .info (.table (some pid))]) := by
  simp only [cheat_check, hreal]
  rw [if_pos hlt]

theorem bet_raise_chain {s : GameState} {pid : Nat} {data : ActionMsg}
    (hverb : normalizeVerb data.action = "BET" ∨
      normalizeVerb data.action = "RAISE") :
    handle_action s pid data =
      (match data.amount with
       | none => (s, .reprompt, [.error pid])
       | some a =>
         if a ≤ 0 then (s, .reprompt, [.error pid])
         else
           if (getP s pid).chips < s.currentBet - (getP s pid).bet + a.toNat
           then (s, .reprompt, [.error pid])
           else
             if 0 ≤ data.claimedScore.getD (-1) then
               match cheat_check s pid (data.claimedScore.getD (-1)) with
               | none => (s, .exn, [])
               | some (s1, true, msgs) => (s1, .done, msgs)
               | some (_, false, _) =>
                 (applyBetRaise s pid
                    (s.currentBet - (getP s pid).bet + a.toNat),
                  .reopen, [.info (.table none)])
             else
               (applyBetRaise s pid
                  (s.currentBet - (getP s pid).bet + a.toNat),
                .reopen, [.info (.table none)])) := by
  simp only [handle_action]
  rcases hverb with hv | hv <;> rw [hv] <;>
    rw [if_neg (by decide), if_neg (by decide), if_neg (by decide),
        if_pos (by simp)]

/-- C4: A BET or RAISE whose amount is not a positive integer (a missing or
non-integer amount field included), or for which
`(current_bet - seat_wager) + amount` exceeds the seat's chip stack, is
rejected with an error to that seat only and re-prompted with no game state
changed; a valid BET or RAISE (one that also passes the cheat cross-check)
moves exactly `(current_bet - seat_wager) + amount` chips from the seat's
stack into the pot and sets both the seat's street wager and the table's
current-street wager to the seat's new cumulative wager. -/
theorem C4_bet_raise :
    ∀ (s : GameState) (pid : Nat) (data : ActionMsg),
      pid < s.players.length →
      (normalizeVerb data.action = "BET" ∨ normalizeVerb data.action = "RAISE") →
      ((data.amount = none ∨ (∃ a : Int, data.amount = some a ∧ a ≤ 0)) →
        handle_action s pid data = (s, .reprompt, [.error pid])) ∧
      (∀ a : Int, data.amount = some a → 0 < a →
        (getP s pid).chips < s.currentBet - (getP s pid).bet + a.toNat →
        handle_action s pid data = (s, .reprompt, [.error pid])) ∧
      (∀ a : Int, data.amount = some a → 0 < a →
        s.currentBet - (getP s pid).bet + a.toNat ≤ (getP s pid).chips →
        (data.claimedScore.getD (-1) < 0 ∨
          (∃ real, evaluate_hand ((getP s pid).hand ++ s.community) = some real ∧
            data.claimedScore.getD (-1) ≤ (real.1 : Int))) →
        handle_action s pid data =
          (applyBetRaise s pid (s.currentBet - (getP s pid).bet + a.toNat),
           .reopen, [.info (.table none)]) ∧
        (getP s pid).chips =
          (getP (applyBetRaise s pid
            (s.currentBet - (getP s pid).bet + a.toNat)) pid).chips +
            (s.currentBet - (getP s pid).bet + a.toNat) ∧
        (applyBetRaise s pid (s.currentBet - (getP s pid).bet + a.toNat)).pot =
          s.pot + (s.currentBet - (getP s pid).bet + a.toNat) ∧
        (getP (applyBetRaise s pid
            (s.currentBet - (getP s pid).bet + a.toNat)) pid).bet =
          (getP s pid).bet + (s.currentBet - (getP s pid).bet + a.toNat) ∧
        (applyBetRaise s pid
            (s.currentBet - (getP s pid).bet + a.toNat)).currentBet =
          (getP (applyBetRaise s pid
            (s.currentBet - (getP s pid).bet + a.toNat)) pid).bet) := by
  intro s pid data hpid hverb
  refine ⟨?_, ?_, ?_⟩
  · intro hbad
    rw [bet_raise_chain hverb]
    rcases hbad with hnone | ⟨a, hsome, hle⟩
    · rw [hnone]
    · rw [hsome]
      simp only
      rw [if_pos hle]
  · intro a hsome hpos hpoor
    rw [bet_raise_chain hverb, hsome]
    simp only
    rw [if_neg (by omega), if_pos hpoor]
  · intro a hsome hpos haff hclaim
    have hmain : handle_action s pid data =
        (applyBetRaise s pid (s.currentBet - (getP s pid).bet + a.toNat),
         .reopen, [.info (.table none)]) := by
      rw [bet_raise_chain hverb, hsome]
      simp only
      rw [if_neg (by omega), if_neg (by omega)]
      rcases hclaim with hneg | ⟨real, hreal, hle⟩
      · rw [if_neg (by omega)]
      · by_cases hcl : 0 ≤ data.claimedScore.getD (-1)
        · rw [if_pos hcl, cheat_check_pass hreal hle]
        · rw [if_neg hcl]
    refine ⟨hmain, ?_, applyBetRaise_pot s pid _, ?_, ?_⟩
    · rw [getP_applyBetRaise_self _ hpid]
      dsimp only
      omega
    · rw [getP_applyBetRaise_self _ hpid]
    · rw [getP_applyBetRaise_self _ hpid]
      rfl

/-- Witness for C4: a concrete accepted raise and a rejected negative bet. -/
theorem C4_witness :
    handle_action
      { players := [{ name := "a", chips := 100, hand := [], folded := false,
                      bet := 0, active := true, isHost := true },
                    { name := "b", chips := 100, hand := [], folded := false,
                      bet := 20, active := true, isHost := false }],
        deck := [], pot := 20, currentBet := 20, community := [] } 0
      { action := some "raise", amount := some 30 } =
      (applyBetRaise
        { players := [{ name := "a", chips := 100, hand := [], folded := false,
                        bet := 0, active := true, isHost := true },
                      { name := "b", chips := 100, hand := [], folded := false,
                        bet := 20, active := true, isHost := false }],
          deck := [], pot := 20, currentBet := 20, community := [] } 0
        (20 - 0 + (30 : Int).toNat),
       .reopen, [.info (.table none)]) ∧
    handle_action
      { players := [{ name := "a", chips := 100, hand := [], folded := false,
                      bet := 0, active := true, isHost := true },
                    { name := "b", chips := 100, hand := [], folded := false,
                      bet := 20, active := true, isHost := false }],
        deck := [], pot := 20, currentBet := 20, community := [] } 0
      { action := some "bet", amount := some (-5) } =
      ({ players := [{ name := "a", chips := 100, hand := [], folded := false,
                       bet := 0, active := true, isHost := true },
                     { name := "b", chips := 100, hand := [], folded := false,
                       bet := 20, active := true, isHost := false }],
         deck := [], pot := 20, currentBet := 20, community := [] },
       .reprompt, [.error 0]) := by
  constructor
  · exact ((C4_bet_raise _ 0 _ (by decide) (Or.inr (by decide))).2.2 30 rfl
      (by decide) (by decide) (Or.inl (by decide))).1
  · exact (C4_bet_raise _ 0 _ (by decide) (Or.inl (by decide))).1
      (Or.inr ⟨-5, rfl, by decide⟩)

/-!
## Frame, conservation and monotonicity through the betting loops
-/

theorem promptLoop_spec :
    ∀ (script : List Incoming) (s : GameState) (pid : Nat)
      (s1 : GameState) (rest : List Incoming) (out : InnerOut),
      pid < s.players.length →
      promptLoop s pid script = some (s1, rest, out) →
      s1.players.length = s.players.length ∧
      chipSum s1 + s1.pot = chipSum s + s.pot ∧
      (∀ q, q ≠ pid → getP s1 q = getP s q) ∧
      ((getP s1 pid).active = true → (getP s pid).active = true) ∧
      ((getP s1 pid).folded = false → (getP s pid).folded = false) ∧
      s1.community = s.community ∧ s1.deck = s.deck := by
  intro script
  induction script with
  | nil => intro s pid s1 rest out _ h; simp [promptLoop] at h
  | cons inc tl ih =>
    intro s pid s1 rest out hpid h
    cases inc with
    | disc =>
      simp only [promptLoop, Option.some.injEq, Prod.mk.injEq] at h
      obtain ⟨rfl, -, -⟩ := h
      have hself := getP_setP_self
        { getP s pid with active := false, folded := true } hpid
      have hcs : chipSum (setP s pid
          { getP s pid with active := false, folded := true }) = chipSum s :=
        chipSum_setP_same_chips _ hpid rfl
      refine ⟨by simp [setP], ?_, fun q hq => getP_setP_other _ hq, ?_, ?_,
        rfl, rfl⟩
      · show chipSum _ + s.pot = chipSum s + s.pot
        rw [hcs]
      · rw [hself]; intro hc; simp at hc
      · rw [hself]; intro hc; simp at hc
    | msg data =>
      rw [promptLoop] at h
      by_cases hhd : data.typeField = some "HOST_DECISION_RESPONSE"
      · rw [if_pos hhd] at h
        exact ih s pid s1 rest out hpid h
      · rw [if_neg hhd] at h
        have hspec := handle_action_spec s pid data hpid
        rcases hha : handle_action s pid data with ⟨sa, ra, ma⟩
        rw [hha] at h hspec
        dsimp only at hspec
        cases ra with
        | reprompt =>
          have hrec := ih sa pid s1 rest out (by omega) h
          refine ⟨by omega, by omega, ?_, ?_, ?_, ?_, ?_⟩
          · intro q hq
            rw [hrec.2.2.1 q hq, hspec.2.2.1 q hq]
          · intro hc
            exact hspec.2.2.2.1 (hrec.2.2.2.1 hc)
          · intro hc
            exact hspec.2.2.2.2.1 (hrec.2.2.2.2.1 hc)
          · rw [hrec.2.2.2.2.2.1, hspec.2.2.2.2.2.1]
          · rw [hrec.2.2.2.2.2.2, hspec.2.2.2.2.2.2]
        | reopen =>
          simp only [Option.some.injEq, Prod.mk.injEq] at h
          obtain ⟨rfl, -, -⟩ := h
          exact hspec
        | done =>
          simp only [Option.some.injEq, Prod.mk.injEq] at h
          obtain ⟨rfl, -, -⟩ := h
          exact hspec
        | exn => simp at h

theorem reAdds_lt (s : GameState) (pid : Nat) (q : List Nat) :
    ∀ p ∈ reAdds s pid q, p < s.players.length := by
  intro p hp
  have := List.mem_filter.1 hp
  exact List.mem_range.1 this.1

theorem bettingLoop_spec :
    ∀ (fuel : Nat) (s : GameState) (q : List Nat) (script : List Incoming)
      (pr : List Nat) (s1 : GameState) (rest : List Incoming)
      (pr1 : List Nat) (normal : Bool),
      (∀ p ∈ q, p < s.players.length) →
      bettingLoop fuel s q script pr = some (s1, rest, pr1, normal) →
      s1.players.length = s.players.length ∧
      chipSum s1 + s1.pot = chipSum s + s.pot ∧
      (∀ qq, (getP s1 qq).active = true → (getP s qq).active = true) ∧
      (∀ qq, (getP s1 qq).folded = false → (getP s qq).folded = false) ∧
      s1.community = s.community ∧ s1.deck = s.deck := by
  intro fuel
  induction fuel with
  | zero =>
    intro s q script pr s1 rest pr1 normal _ h
    simp [bettingLoop] at h
  | succ n ih =>
    intro s q script pr s1 rest pr1 normal hq h
    rw [bettingLoop.eq_def] at h
    cases q with
    | nil =>
      dsimp only at h
      simp only [Option.some.injEq, Prod.mk.injEq] at h
      obtain ⟨rfl, -, -, -⟩ := h
      exact ⟨rfl, rfl, fun _ hc => hc, fun _ hc => hc, rfl, rfl⟩
    | cons pid qrest =>
      dsimp only at h
      have hpid : pid < s.players.length := hq pid (by simp)
      by_cases hskip : (getP s pid).folded = true ∨ (getP s pid).active = false
      · rw [if_pos (by rcases hskip with hs | hs <;> simp [hs])] at h
        exact ih s qrest script pr s1 rest pr1 normal
          (fun p hp => hq p (List.mem_cons_of_mem _ hp)) h
      · push_neg at hskip
        rw [if_neg (by
          simp only [Bool.or_eq_true, Bool.not_eq_true']
          push_neg
          exact ⟨by simp [hskip.1], by simp [hskip.2]⟩)] at h
        rcases hpl : promptLoop s pid script with - | ⟨sa, resta, out⟩
        · rw [hpl] at h; simp at h
        · rw [hpl] at h
          dsimp only at h
          have hps := promptLoop_spec script s pid sa resta out hpid hpl
          by_cases hcont : (activeInHand sa).length ≤ 1
          · rw [if_pos hcont] at h
            simp only [Option.some.injEq, Prod.mk.injEq] at h
            obtain ⟨rfl, -, -, -⟩ := h
            refine ⟨hps.1, hps.2.1, ?_, ?_, hps.2.2.2.2.2.1, hps.2.2.2.2.2.2⟩
            · intro qq hc
              by_cases hqq : qq = pid
              · subst hqq; exact hps.2.2.2.1 hc
              · rw [hps.2.2.1 qq hqq] at hc; exact hc
            · intro qq hc
              by_cases hqq : qq = pid
              · subst hqq; exact hps.2.2.2.2.1 hc
              · rw [hps.2.2.1 qq hqq] at hc; exact hc
          · rw [if_neg hcont] at h
            have hlen : sa.players.length = s.players.length := hps.1
            have hq1 : ∀ p ∈ (match out with
                | InnerOut.acted true => qrest ++ reAdds sa pid qrest
                | _ => qrest), p < sa.players.length := by
              intro p hp
              cases out with
              | disconnected =>
                exact hlen ▸ hq p (List.mem_cons_of_mem _ hp)
              | acted reopened =>
                cases reopened with
                | false => exact hlen ▸ hq p (List.mem_cons_of_mem _ hp)
                | true =>
                  rcases List.mem_append.1 hp with hp1 | hp1
                  · exact hlen ▸ hq p (List.mem_cons_of_mem _ hp1)
                  · exact reAdds_lt sa pid qrest p hp1
            have hrec := ih sa _ resta (pr ++ [pid]) s1 rest pr1 normal hq1 h
            refine ⟨by omega, by omega, ?_, ?_, ?_, ?_⟩
            · intro qq hc
              have h1 := hrec.2.2.1 qq hc
              by_cases hqq : qq = pid
              · subst hqq; exact hps.2.2.2.1 h1
              · rw [hps.2.2.1 qq hqq] at h1; exact h1
            · intro qq hc
              have h1 := hrec.2.2.2.1 qq hc
              by_cases hqq : qq = pid
              · subst hqq; exact hps.2.2.2.2.1 h1
              · rw [hps.2.2.1 qq hqq] at h1; exact h1
            · rw [hrec.2.2.2.2.1, hps.2.2.2.2.2.1]
            · rw [hrec.2.2.2.2.2, hps.2.2.2.2.2.2]

theorem list_getD_map_player (f : Player → Player) (hf : f default = default) :
    ∀ (l : List Player) (q : Nat),
      (l.map f).getD q default = f (l.getD q default) := by
  intro l
  induction l with
  | nil => intro q; simp [List.getD, hf]
  | cons x t ih =>
    intro q
    cases q with
    | zero => rfl
    | succ m => exact ih m

theorem getP_betReset (s : GameState) (q : Nat) :
    getP (betReset s) q = { getP s q with bet := 0 } :=
  list_getD_map_player (fun p => { p with bet := 0 }) rfl s.players q

theorem betReset_length (s : GameState) :
    (betReset s).players.length = s.players.length := by
  simp [betReset]

theorem betReset_pot (s : GameState) : (betReset s).pot = s.pot := rfl

theorem betReset_community (s : GameState) :
    (betReset s).community = s.community := rfl

theorem betReset_deck (s : GameState) : (betReset s).deck = s.deck := rfl

theorem chipSum_betReset (s : GameState) : chipSum (betReset s) = chipSum s := by
  unfold chipSum betReset
  dsimp only
  rw [List.map_map]
  rfl

theorem activeInHand_betReset (s : GameState) :
    activeInHand (betReset s) = activeInHand s := by
  unfold activeInHand
  rw [betReset_length]
  apply List.filter_congr
  intro q _
  rw [getP_betReset]

theorem countP_le_succ_of_agree_except {l : List Nat} (p1 p2 : Nat → Bool)
    (pid : Nat) (hnd : l.Nodup)
    (hag : ∀ x ∈ l, x ≠ pid → p1 x = p2 x) :
    l.countP p1 ≤ l.countP p2 + 1 := by
  induction l with
  | nil => simp
  | cons x t ih =>
    rw [List.nodup_cons] at hnd
    by_cases hx : x = pid
    · subst hx
      have ht : t.countP p1 = t.countP p2 := by
        apply List.countP_congr
        intro y hy
        have hyx : y ≠ x := fun hc => hnd.1 (hc ▸ hy)
        rw [hag y (List.mem_cons_of_mem _ hy) hyx]
      rw [List.countP_cons, List.countP_cons, ht]
      by_cases h1 : p1 x <;> by_cases h2 : p2 x <;> simp [h1, h2] <;> omega
    · have hhd := hag x (by simp) hx
      have ht := ih hnd.2
        (fun y hy hyp => hag y (List.mem_cons_of_mem _ hy) hyp)
      rw [List.countP_cons, List.countP_cons, hhd]
      omega

theorem activeInHand_length_ge {s sa : GameState} {pid : Nat}
    (hlen : sa.players.length = s.players.length)
    (hother : ∀ q, q ≠ pid → getP sa q = getP s q) :
    (activeInHand s).length ≤ (activeInHand sa).length + 1 := by
  unfold activeInHand
  rw [hlen]
  rw [← List.countP_eq_length_filter, ← List.countP_eq_length_filter]
  apply countP_le_succ_of_agree_except _ _ pid (List.nodup_range _)
  intro x _ hx
  rw [hother x hx]

theorem bettingLoop_ge_one :
    ∀ (fuel : Nat) (s : GameState) (q : List Nat) (script : List Incoming)
      (pr : List Nat) (s1 : GameState) (rest : List Incoming)
      (pr1 : List Nat) (normal : Bool),
      (∀ p ∈ q, p < s.players.length) →
      2 ≤ (activeInHand s).length →
      bettingLoop fuel s q script pr = some (s1, rest, pr1, normal) →
      1 ≤ (activeInHand s1).length := by
  intro fuel
  induction fuel with
  | zero =>
    intro s q script pr s1 rest pr1 normal _ _ h
    simp [bettingLoop] at h
  | succ n ih =>
    intro s q script pr s1 rest pr1 normal hq h2 h
    rw [bettingLoop.eq_def] at h
    cases q with
    | nil =>
      dsimp only at h
      simp only [Option.some.injEq, Prod.mk.injEq] at h
      obtain ⟨rfl, -, -, -⟩ := h
      omega
    | cons pid qrest =>
      dsimp only at h
      have hpid : pid < s.players.length := hq pid (by simp)
      by_cases hskip : (getP s pid).folded = true ∨ (getP s pid).active = false
      · rw [if_pos (by rcases hskip with hs | hs <;> simp [hs])] at h
        exact ih s qrest script pr s1 rest pr1 normal
          (fun p hp => hq p (List.mem_cons_of_mem _ hp)) h2 h
      · push_neg at hskip
        rw [if_neg (by
          simp only [Bool.or_eq_true, Bool.not_eq_true']
          push_neg
          exact ⟨by simp [hskip.1], by simp [hskip.2]⟩)] at h
        rcases hpl : promptLoop s pid script with - | ⟨sa, resta, out⟩
        · rw [hpl] at h; simp at h
        · rw [hpl] at h
          dsimp only at h
          have hps := promptLoop_spec script s pid sa resta out hpid hpl
          have hge : (activeInHand s).length ≤ (activeInHand sa).length + 1 :=
            activeInHand_length_ge hps.1 hps.2.2.1
          by_cases hcont : (activeInHand sa).length ≤ 1
          · rw [if_pos hcont] at h
            simp only [Option.some.injEq, Prod.mk.injEq] at h
            obtain ⟨rfl, -, -, -⟩ := h
            omega
          · rw [if_neg hcont] at h
            have hlen : sa.players.length = s.players.length := hps.1
            have hq1 : ∀ p ∈ (match out with
                | InnerOut.acted true => qrest ++ reAdds sa pid qrest
                | _ => qrest), p < sa.players.length := by
              intro p hp
              cases out with
              | disconnected =>
                exact hlen ▸ hq p (List.mem_cons_of_mem _ hp)
              | acted reopened =>
                cases reopened with
                | false => exact hlen ▸ hq p (List.mem_cons_of_mem _ hp)
                | true =>
                  rcases List.mem_append.1 hp with hp1 | hp1
                  · exact hlen ▸ hq p (List.mem_cons_of_mem _ hp1)
                  · exact reAdds_lt sa pid qrest p hp1
            exact ih sa _ resta (pr ++ [pid]) s1 rest pr1 normal hq1
              (by omega) h

theorem betting_round_spec {fuel : Nat} {stage : String} {s s1 : GameState}
    {script rest : List Incoming} {pr1 : List Nat} {normal : Bool}
    (h : betting_round fuel stage s script = some (s1, rest, pr1, normal)) :
    s1.players.length = s.players.length ∧
    chipSum s1 + s1.pot = chipSum s + s.pot ∧
    (∀ qq, (getP s1 qq).active = true → (getP s qq).active = true) ∧
    (∀ qq, (getP s1 qq).folded = false → (getP s qq).folded = false) ∧
    s1.community = s.community ∧ s1.deck = s.deck ∧
    (1 ≤ (activeInHand s).length → 1 ≤ (activeInHand s1).length) := by
  unfold betting_round at h
  by_cases hcont : (activeInHand (betReset s)).length ≤ 1
  · rw [if_pos hcont] at h
    simp only [Option.some.injEq, Prod.mk.injEq] at h
    obtain ⟨rfl, -, -, -⟩ := h
    refine ⟨betReset_length s, ?_, ?_, ?_, rfl, rfl, ?_⟩
    · rw [chipSum_betReset, betReset_pot]
    · intro qq
      rw [getP_betReset]
      exact fun hc => hc
    · intro qq
      rw [getP_betReset]
      exact fun hc => hc
    · rw [activeInHand_betReset]
      exact fun hc => hc
  · rw [if_neg hcont] at h
    have hqbound : ∀ p ∈ activeInHand (betReset s),
        p < (betReset s).players.length := by
      intro p hp
      exact List.mem_range.1 (List.mem_filter.1 hp).1
    have hb := bettingLoop_spec fuel (betReset s) (activeInHand (betReset s))
      script [] s1 rest pr1 normal hqbound h
    have hge := bettingLoop_ge_one fuel (betReset s) (activeInHand (betReset s))
      script [] s1 rest pr1 normal hqbound (by omega) h
    rw [betReset_length] at hb
    refine ⟨hb.1, ?_, ?_, ?_, hb.2.2.2.2.1, hb.2.2.2.2.2, fun _ => hge⟩
    · have := hb.2.1
      rw [chipSum_betReset, betReset_pot] at this
      exact this
    · intro qq hc
      have h1 := hb.2.2.1 qq hc
      rw [getP_betReset] at h1
      exact h1
    · intro qq hc
      have h1 := hb.2.2.2.1 qq hc
      rw [getP_betReset] at h1
      exact h1

/-!
## Supporting lemmas: resolution
-/

theorem clearPot_pot (s : GameState) : (clearPot s).pot = 0 := rfl

theorem clearPot_getP (s : GameState) (q : Nat) :
    getP (clearPot s) q = getP s q := rfl

theorem chipSum_clearPot (s : GameState) : chipSum (clearPot s) = chipSum s := rfl

theorem mapM_eq_map {α β : Type} {f : α → Option β} {g : α → β} :
    ∀ {l : List α}, (∀ a ∈ l, f a = some (g a)) → l.mapM f = some (l.map g) := by
  intro l
  induction l with
  | nil => intro _; rfl
  | cons a t ih =>
    intro hall
    rw [List.mapM_cons, hall a (by simp),
        ih (fun b hb => hall b (List.mem_cons_of_mem _ hb))]
    rfl

theorem showdownResults_eq_map {s : GameState}
    (hall : ∀ pid ∈ activeInHand s,
      (evaluate_hand ((getP s pid).hand ++ s.community)).isSome = true) :
    showdownResults s =
      some ((activeInHand s).map
        (fun pid => (trueScore s pid, pid, trueDesc s pid))) := by
  unfold showdownResults
  apply mapM_eq_map
  intro pid hpid
  have hP := hall pid hpid
  rcases hs : evaluate_hand ((getP s pid).hand ++ s.community) with - | v
  · rw [hs] at hP
    simp at hP
  · unfold trueScore trueDesc
    rw [hs]
    rfl

theorem creditAll_spec :
    ∀ (W : List Nat) (s : GameState) (split : Nat),
      (creditAll s W split).players.length = s.players.length ∧
      (creditAll s W split).pot = s.pot ∧
      (creditAll s W split).currentBet = s.currentBet ∧
      (creditAll s W split).community = s.community ∧
      (creditAll s W split).deck = s.deck ∧
      (∀ q, q ∉ W → getP (creditAll s W split) q = getP s q) ∧
      (W.Nodup → (∀ w ∈ W, w < s.players.length) →
        ∀ q ∈ W, getP (creditAll s W split) q =
          { getP s q with chips := (getP s q).chips + split }) := by
  intro W
  induction W with
  | nil =>
    intro s split
    exact ⟨rfl, rfl, rfl, rfl, rfl, fun _ _ => rfl, fun _ _ q hq => by simp at hq⟩
  | cons w W' ih =>
    intro s split
    have hstep : creditAll s (w :: W') split =
        creditAll (setP s w
          { getP s w with chips := (getP s w).chips + split }) W' split := rfl
    have hlen2 : (setP s w
        { getP s w with chips := (getP s w).chips + split }).players.length =
        s.players.length := by simp [setP]
    have hi := ih (setP s w
      { getP s w with chips := (getP s w).chips + split }) split
    rw [hstep]
    refine ⟨by rw [hi.1, hlen2], by rw [hi.2.1]; rfl, by rw [hi.2.2.1]; rfl,
      by rw [hi.2.2.2.1]; rfl, by rw [hi.2.2.2.2.1]; rfl, ?_, ?_⟩
    · intro q hq
      have hqw : q ≠ w := fun hc => hq (hc ▸ List.mem_cons_self _ _)
      have hqW2 : q ∉ W' := fun hc => hq (List.mem_cons_of_mem _ hc)
      rw [hi.2.2.2.2.2.1 q hqW2, getP_setP_other _ hqw]
    · intro hnd hlt q hq
      rw [List.nodup_cons] at hnd
      have hwlt : w < s.players.length := hlt w (by simp)
      rcases List.mem_cons.1 hq with rfl | hq2
      · rw [hi.2.2.2.2.2.1 q hnd.1, getP_setP_self _ hwlt]
      · have hqw : q ≠ w := fun hc => hnd.1 (hc ▸ hq2)
        rw [hi.2.2.2.2.2.2 hnd.2
            (fun v hv => by
              rw [hlen2]
              exact hlt v (List.mem_cons_of_mem _ hv)) q hq2,
          getP_setP_other _ hqw]

theorem chipSum_creditAll :
    ∀ (W : List Nat) (s : GameState) (split : Nat),
      (∀ w ∈ W, w < s.players.length) →
      chipSum (creditAll s W split) = chipSum s + W.length * split := by
  intro W
  induction W with
  | nil => intro s split _; simp [creditAll]
  | cons w W' ih =>
    intro s split hlt
    have hstep : creditAll s (w :: W') split =
        creditAll (setP s w
          { getP s w with chips := (getP s w).chips + split }) W' split := rfl
    have hlen2 : (setP s w
        { getP s w with chips := (getP s w).chips + split }).players.length =
        s.players.length := by simp [setP]
    rw [hstep]
    have hwlt : w < s.players.length := hlt w (by simp)
    have hset := chipSum_setP
      { getP s w with chips := (getP s w).chips + split } hwlt
    have hproj : ({ getP s w with chips := (getP s w).chips + split } : Player).chips = (getP s w).chips + split := rfl
    rw [hproj] at hset
    have hi := ih (setP s w
      { getP s w with chips := (getP s w).chips + split }) split
      (fun v hv => by
        rw [hlen2]
        exact hlt v (List.mem_cons_of_mem _ hv))
    rw [hi]
    simp only [List.length_cons]
    have hcs : chipSum (setP s w
        { getP s w with chips := (getP s w).chips + split }) =
        chipSum s + split := by omega
    rw [hcs]
    ring

theorem sortedDesc_head_max (R : List (Nat × Nat × String))
    (y : Nat × Nat × String) (ys : List (Nat × Nat × String))
    (hsort : R.insertionSort (fun a b => a.1 ≥ b.1) = y :: ys) :
    y.1 = listMax (R.map (fun r => r.1)) := by
  have hperm := List.perm_insertionSort (fun a b => a.1 ≥ b.1) R
  have hsorted := List.sorted_insertionSort (fun a b => a.1 ≥ b.1) R
  rw [hsort] at hperm hsorted
  rw [List.sorted_cons] at hsorted
  apply Nat.le_antisymm
  · exact le_listMax (List.mem_map.2 ⟨y, hperm.mem_iff.1 (by simp), rfl⟩)
  · apply listMax_le
    intro v hv
    rcases List.mem_map.1 hv with ⟨r, hr, rfl⟩
    rcases List.mem_cons.1 (hperm.mem_iff.2 hr) with heq | hr2
    · rw [heq]
    · exact hsorted.1 r hr2

theorem resolve_winner_showdown {s : GameState}
    (h2 : 2 ≤ (activeInHand s).length)
    (hall : ∀ pid ∈ activeInHand s,
      (evaluate_hand ((getP s pid).hand ++ s.community)).isSome = true) :
    ∃ W, resolve_winner s =
        some (clearPot (creditAll s W (s.pot / W.length)),
          (activeInHand s).map (.showdown ·) ++ [.reveal] ++
            [.winnerSplit W s.pot (decide (1 < W.length))]) ∧
      W.Nodup ∧ (∀ w ∈ W, w < s.players.length) ∧
      (∀ x, x ∈ W ↔ x ∈ winnersOf s) ∧
      W.length = (winnersOf s).length ∧ 1 ≤ W.length := by
  have hres := showdownResults_eq_map hall
  have hAnodup : (activeInHand s).Nodup :=
    (List.nodup_range _).filter _
  have hAlt : ∀ p ∈ activeInHand s, p < s.players.length := by
    intro p hp
    exact List.mem_range.1 (List.mem_filter.1 hp).1
  rcases hA : activeInHand s with - | ⟨c1, - | ⟨c2, cs⟩⟩
  · rw [hA] at h2; simp at h2
  · rw [hA] at h2; simp at h2
  · -- the resolver takes the showdown branch
    rw [hA] at hres hAnodup hAlt
    unfold resolve_winner
    rw [hA, hres]
    dsimp only
    set g : Nat → Nat × Nat × String :=
      fun pid => (trueScore s pid, pid, trueDesc s pid) with hg
    set R : List (Nat × Nat × String) := (c1 :: c2 :: cs).map g with hR
    set sorted := R.insertionSort (fun a b => a.1 ≥ b.1) with hsorted_def
    have hperm : sorted.Perm R := List.perm_insertionSort _ R
    have hslen : sorted.length = R.length := hperm.length_eq
    rcases hso : sorted with - | ⟨y, ys⟩
    · rw [hso] at hslen
      rw [hR] at hslen
      simp at hslen
    · have htop : y.1 = listMax (R.map (fun r => r.1)) :=
        sortedDesc_head_max R y ys (by rw [← hsorted_def, hso])
      have hscores : R.map (fun r => r.1) = (c1 :: c2 :: cs).map (trueScore s) := by
        rw [hR, List.map_map]
        rfl
      have htopScore : topScore s = y.1 := by
        unfold topScore
        rw [hA, htop, hscores]
      -- the winners and their seats
      have hpidmap : (sorted.map (fun r => r.2.1)).Perm (c1 :: c2 :: cs) := by
        refine (hperm.map _).trans ?_
        rw [hR, List.map_map]
        have : ((fun r : Nat × Nat × String => r.2.1) ∘ g) = id := rfl
        rw [this, List.map_id]
      have hWnodup : ((sorted.filter (fun r => r.1 == y.1)).map
          (fun r => r.2.1)).Nodup := by
        have hs1 : (sorted.map (fun r => r.2.1)).Nodup :=
          hpidmap.nodup_iff.2 hAnodup
        exact hs1.sublist ((List.filter_sublist sorted).map _)
      have hWmemc : ∀ x ∈ (sorted.filter (fun r => r.1 == y.1)).map
          (fun r => r.2.1), x ∈ (c1 :: c2 :: cs) := by
        intro x hx
        rcases List.mem_map.1 hx with ⟨r, hr, rfl⟩
        exact hpidmap.mem_iff.1
          (List.mem_map.2 ⟨r, (List.mem_filter.1 hr).1, rfl⟩)
      have hmemg : ∀ r ∈ R, r = g r.2.1 ∧ r.2.1 ∈ (c1 :: c2 :: cs) := by
        intro r hr
        rcases List.mem_map.1 (hR ▸ hr) with ⟨pid, hpid, rfl⟩
        exact ⟨rfl, hpid⟩
      have hWiff : ∀ x, (x ∈ (sorted.filter (fun r => r.1 == y.1)).map
          (fun r => r.2.1)) ↔ x ∈ winnersOf s := by
        intro x
        unfold winnersOf
        rw [hA]
        constructor
        · intro hx
          rcases List.mem_map.1 hx with ⟨r, hr, rfl⟩
          have hrf := List.mem_filter.1 hr
          have hrR : r ∈ R := hperm.mem_iff.1 hrf.1
          rcases hmemg r hrR with ⟨hrg, hrmem⟩
          refine List.mem_filter.2 ⟨hrmem, ?_⟩
          have hr1 : r.1 = trueScore s r.2.1 := by rw [hrg]
          have hreq : r.1 = y.1 := by simpa using hrf.2
          rw [htopScore]
          simp [← hr1, hreq]
        · intro hx
          have hxf := List.mem_filter.1 hx
          have hgx : g x ∈ R := by
            rw [hR]
            exact List.mem_map.2 ⟨x, hxf.1, rfl⟩
          have hgs : g x ∈ sorted := hperm.mem_iff.2 hgx
          refine List.mem_map.2 ⟨g x, List.mem_filter.2 ⟨hgs, ?_⟩, rfl⟩
          have : trueScore s x = topScore s := by simpa using hxf.2
          rw [htopScore] at this
          simp [hg, this]
      have hWlen : ((sorted.filter (fun r => r.1 == y.1)).map
          (fun r => r.2.1)).length = (winnersOf s).length := by
        rw [List.length_map, ← List.countP_eq_length_filter,
          hperm.countP_eq]
        unfold winnersOf
        rw [hA, ← List.countP_eq_length_filter, hR, List.countP_map]
        apply List.countP_congr
        intro pid _
        have h1 : ((fun r : Nat × Nat × String => r.1 == y.1) ∘ g) pid =
            (trueScore s pid == y.1) := rfl
        rw [h1, htopScore]
      have hWpos : 1 ≤ ((sorted.filter (fun r => r.1 == y.1)).map
          (fun r => r.2.1)).length := by
        have hyf : y ∈ sorted.filter (fun r => r.1 == y.1) :=
          List.mem_filter.2 ⟨by rw [hso]; simp, by simp⟩
        have hmm : y.2.1 ∈ (sorted.filter (fun r => r.1 == y.1)).map
            (fun r => r.2.1) := List.mem_map.2 ⟨y, hyf, rfl⟩
        exact List.length_pos.2 (List.ne_nil_of_mem hmm)
      refine ⟨(sorted.filter (fun r => r.1 == y.1)).map (fun r => r.2.1),
        ?_, hWnodup, fun w hw => hAlt w (hWmemc w hw), hWiff, hWlen, hWpos⟩
      rw [hso]
      simp only [List.headD_cons, List.length_map]

theorem resolve_winner_empty {s : GameState} (h : activeInHand s = []) :
    resolve_winner s = some (clearPot s, [.info (.table none)]) := by
  unfold resolve_winner
  rw [h]

theorem resolve_winner_single {s : GameState} {w : Nat}
    (h : activeInHand s = [w]) :
    resolve_winner s =
      some (clearPot
              (setP s w { getP s w with chips := (getP s w).chips + s.pot }),
            [.winner w "Last player standing" s.pot]) := by
  unfold resolve_winner
  rw [h]

theorem resolve_winner_conservation {s s1 : GameState} {msgs : List OutMsg}
    (h1 : 1 ≤ (activeInHand s).length)
    (hlt : ∀ p ∈ activeInHand s, p < s.players.length)
    (h : resolve_winner s = some (s1, msgs)) :
    chipSum s + s.pot = chipSum s1 + s1.pot +
        (if 2 ≤ (activeInHand s).length then s.pot % (winnersOf s).length
         else 0) ∧
      1 ≤ (winnersOf s).length ∧
      (winnersOf s).length ≤ (activeInHand s).length ∧
      s1.pot = 0 := by
  rcases hA : activeInHand s with - | ⟨c1, - | ⟨c2, cs⟩⟩
  · rw [hA] at h1; simp at h1
  · -- a single contender takes the whole pot
    rw [resolve_winner_single hA] at h
    simp only [Option.some.injEq, Prod.mk.injEq] at h
    obtain ⟨rfl, -⟩ := h
    have hc1lt : c1 < s.players.length := by
      have hl := hlt c1
      rw [hA] at hl
      exact hl (by simp)
    have hcs := chipSum_setP
      { getP s c1 with chips := (getP s c1).chips + s.pot } hc1lt
    have hproj : ({ getP s c1 with chips := (getP s c1).chips + s.pot } :
        Player).chips = (getP s c1).chips + s.pot := rfl
    rw [hproj] at hcs
    have hw1 : winnersOf s = [c1] := by
      unfold winnersOf topScore
      rw [hA]
      simp [listMax]
    rw [hw1]
    refine ⟨?_, by simp, le_refl _, rfl⟩
    have hx1 : chipSum (clearPot (setP s c1
        { getP s c1 with chips := (getP s c1).chips + s.pot })) =
        chipSum (setP s c1
          { getP s c1 with chips := (getP s c1).chips + s.pot }) := rfl
    have hx2 : (clearPot (setP s c1
        { getP s c1 with chips := (getP s c1).chips + s.pot })).pot = 0 := rfl
    rw [hx1, hx2, if_neg (by simp)]
    omega
  · -- showdown
    have h2 : 2 ≤ (activeInHand s).length := by
      rw [hA]; simp only [List.length_cons]; omega
    have hall : ∀ pid ∈ activeInHand s,
        (evaluate_hand ((getP s pid).hand ++ s.community)).isSome = true := by
      intro pid hpid
      rcases hs : evaluate_hand ((getP s pid).hand ++ s.community) with - | v
      · -- the resolver would have raised, contradicting `h`
        exfalso
        have hnone : showdownResults s = none := by
          unfold showdownResults
          rcases hmm : (activeInHand s).mapM (fun pid =>
            match evaluate_hand ((getP s pid).hand ++ s.community) with
            | none => none
            | some sc => some (sc.1, pid, sc.2)) with - | ys
          · exact hmm
          · exfalso
            rcases mem_of_mapM_some hmm hpid with ⟨z, -, hz⟩
            rw [hs] at hz
            simp at hz
        unfold resolve_winner at h
        rw [hA, hnone] at h
        simp at h
      · simp [hs]
    rcases resolve_winner_showdown h2 hall with
      ⟨W, heq, hnd, hWlt, hWiff, hWlen, hWpos⟩
    rw [heq] at h
    simp only [Option.some.injEq, Prod.mk.injEq] at h
    obtain ⟨rfl, -⟩ := h
    have hsum : chipSum (creditAll s W (s.pot / W.length)) =
        chipSum s + W.length * (s.pot / W.length) :=
      chipSum_creditAll W s (s.pot / W.length) hWlt
    have hcc : chipSum (clearPot (creditAll s W (s.pot / W.length))) =
        chipSum (creditAll s W (s.pot / W.length)) := rfl
    have hWlen2 : (winnersOf s).length ≤ (c1 :: c2 :: cs).length := by
      unfold winnersOf
      rw [hA]
      exact List.length_filter_le _ _
    rw [if_pos (by simp only [List.length_cons]; omega), hcc, hsum]
    have hdiv : W.length * (s.pot / W.length) + s.pot % W.length = s.pot :=
      Nat.div_add_mod s.pot W.length
    have hz : (clearPot (creditAll s W (s.pot / W.length))).pot = 0 := rfl
    rw [hz, hWlen]
    refine ⟨?_, by omega, hWlen2, rfl⟩
    rw [← hWlen]
    omega

/-!
## Supporting lemmas: dealing, blinds and community cards
-/

theorem getP_default {s : GameState} {q : Nat} (h : s.players.length ≤ q) :
    getP s q = default := by
  unfold getP
  unfold List.getD
  rw [List.get?_eq_none.mpr h]
  rfl

theorem activeInHand_eq_of_flags {s s1 : GameState}
    (hlen : s1.players.length = s.players.length)
    (hfl : ∀ q, (getP s1 q).active = (getP s q).active ∧
      (getP s1 q).folded = (getP s q).folded) :
    activeInHand s1 = activeInHand s := by
  unfold activeInHand
  rw [hlen]
  apply List.filter_congr
  intro q _
  rw [(hfl q).1, (hfl q).2]

theorem dealLoop_spec :
    ∀ (pids : List Nat) (s s1 : GameState),
      pids.Nodup → (∀ p ∈ pids, p < s.players.length) →
      dealLoop s pids = some s1 →
      s1.players.length = s.players.length ∧
      chipSum s1 = chipSum s ∧ s1.pot = s.pot ∧
      s1.currentBet = s.currentBet ∧ s1.community = s.community ∧
      (∀ q, q ∉ pids → getP s1 q = getP s q) ∧
      (∀ q ∈ pids, (getP s1 q).active = (getP s q).active ∧
        (getP s1 q).chips = (getP s q).chips ∧
        ((getP s q).active = true → (getP s1 q).folded = false) ∧
        ((getP s q).active = false → getP s1 q = getP s q)) := by
  intro pids
  induction pids with
  | nil =>
    intro s s1 _ _ h
    simp only [dealLoop, Option.some.injEq] at h
    subst h
    exact ⟨rfl, rfl, rfl, rfl, rfl, fun _ _ => rfl, fun q hq => by simp at hq⟩
  | cons pid rest ih =>
    intro s s1 hnd hlt h
    rw [List.nodup_cons] at hnd
    have hpid : pid < s.players.length := hlt pid (by simp)
    rw [dealLoop] at h
    by_cases hact : (getP s pid).active = true
    · rw [if_pos hact] at h
      cases hp1 : popEnd s.deck with
      | none => rw [hp1] at h; simp at h
      | some cd1 =>
        obtain ⟨c1, d1⟩ := cd1
        rw [hp1] at h
        dsimp only at h
        cases hp2 : popEnd d1 with
        | none => rw [hp2] at h; simp at h
        | some cd2 =>
          obtain ⟨c2, d2⟩ := cd2
          rw [hp2] at h
          dsimp only at h
          have hsplit : ({ setP s pid
                { getP s pid with hand := [c1, c2], folded := false, bet := 0 }
              with deck := d2 } : GameState)
              = setP { s with deck := d2 } pid
                { getP s pid with hand := [c1, c2], folded := false, bet := 0 } := rfl
          rw [hsplit] at h
          have hpid2 : pid < ({ s with deck := d2 } : GameState).players.length :=
            hpid
          have hgetP2 : ∀ q, getP ({ s with deck := d2 } : GameState) q
              = getP s q := fun _ => rfl
          have hrec := ih _ s1 hnd.2
            (fun p hp => by
              have : (setP { s with deck := d2 } pid
                  { getP s pid with hand := [c1, c2], folded := false, bet := 0 }).players.length = s.players.length := by
                show (s.players.set pid _).length = _
                simp
              rw [this]
              exact hlt p (List.mem_cons_of_mem _ hp))
            h
          have hlen2 : (setP { s with deck := d2 } pid
              { getP s pid with hand := [c1, c2], folded := false, bet := 0 }).players.length = s.players.length := by
            show (s.players.set pid _).length = _
            simp
          have hcs2 : chipSum (setP { s with deck := d2 } pid
              { getP s pid with hand := [c1, c2], folded := false, bet := 0 }) = chipSum s :=
            chipSum_setP_same_chips _ hpid2 rfl
          have hself : getP (setP { s with deck := d2 } pid
              { getP s pid with hand := [c1, c2], folded := false, bet := 0 }) pid
              = { getP s pid with hand := [c1, c2], folded := false, bet := 0 } :=
            getP_setP_self _ hpid2
          have hother : ∀ q, q ≠ pid → getP (setP { s with deck := d2 } pid
              { getP s pid with hand := [c1, c2], folded := false, bet := 0 }) q = getP s q := by
            intro q hq
            rw [getP_setP_other _ hq]
            rfl
          refine ⟨by rw [hrec.1, hlen2], by rw [hrec.2.1, hcs2],
            hrec.2.2.1.trans rfl, hrec.2.2.2.1.trans rfl,
            hrec.2.2.2.2.1.trans rfl, ?_, ?_⟩
          · intro q hq
            have hqp : q ≠ pid := fun hc => hq (hc ▸ List.mem_cons_self _ _)
            have hqr : q ∉ rest := fun hc => hq (List.mem_cons_of_mem _ hc)
            rw [hrec.2.2.2.2.2.1 q hqr, hother q hqp]
          · intro q hq
            rcases List.mem_cons.1 hq with rfl | hq2
            · have hq1 := hrec.2.2.2.2.2.1 q hnd.1
              rw [hq1, hself]
              exact ⟨hact ▸ rfl, rfl, fun _ => rfl,
                fun hc => absurd hact (by rw [hc]; simp)⟩
            · have hq2s := hrec.2.2.2.2.2.2 q hq2
              have hqp : q ≠ pid := fun hc => hnd.1 (hc ▸ hq2)
              rw [hother q hqp] at hq2s
              exact hq2s
    · rw [if_neg hact] at h
      have hrec := ih s s1 hnd.2
        (fun p hp => hlt p (List.mem_cons_of_mem _ hp)) h
      refine ⟨hrec.1, hrec.2.1, hrec.2.2.1, hrec.2.2.2.1, hrec.2.2.2.2.1,
        ?_, ?_⟩
      · intro q hq
        exact hrec.2.2.2.2.2.1 q (fun hc => hq (List.mem_cons_of_mem _ hc))
      · intro q hq
        rcases List.mem_cons.1 hq with rfl | hq2
        · by_cases hqr : q ∈ rest
          · exact hrec.2.2.2.2.2.2 q hqr
          · have heq := hrec.2.2.2.2.2.1 q hqr
            rw [heq]
            exact ⟨rfl, rfl, fun hc => absurd hc hact, fun _ => rfl⟩
        · exact hrec.2.2.2.2.2.2 q hq2

theorem mem_activeInHand_lt {s : GameState} {p : Nat}
    (h : p ∈ activeInHand s) : p < s.players.length := by
  unfold activeInHand at h
  exact List.mem_range.1 (List.mem_of_mem_filter h)

theorem blindStep_eq_payToPot {s : GameState} {pid : Nat}
    (hcond : ((getP s pid).active && decide (10 ≤ (getP s pid).chips)) = true) :
    blindStep s pid = payToPot s pid 10 := by
  simp only [blindStep]
  rw [if_pos hcond]
  rfl

theorem blindStep_spec (s : GameState) (pid : Nat) :
    (blindStep s pid).players.length = s.players.length ∧
    chipSum (blindStep s pid) + (blindStep s pid).pot = chipSum s + s.pot ∧
    (blindStep s pid).community = s.community ∧
    (blindStep s pid).deck = s.deck ∧
    (∀ q, (getP (blindStep s pid) q).active = (getP s q).active ∧
      (getP (blindStep s pid) q).folded = (getP s q).folded ∧
      (getP (blindStep s pid) q).hand = (getP s q).hand) := by
  by_cases hcond :
      ((getP s pid).active && decide (10 ≤ (getP s pid).chips)) = true
  · have hsplit2 := (Bool.and_eq_true _ _).mp hcond
    have hact : (getP s pid).active = true := hsplit2.1
    have hch : 10 ≤ (getP s pid).chips := of_decide_eq_true hsplit2.2
    have hpid : pid < s.players.length := by
      by_contra hc
      rw [getP_default (Nat.le_of_not_lt hc)] at hact
      exact absurd hact (by decide)
    rw [blindStep_eq_payToPot hcond]
    have hcs := chipSum_payToPot 10 hpid hch
    refine ⟨payToPot_length s pid 10, ?_, payToPot_community s pid 10, rfl, ?_⟩
    · rw [payToPot_pot]
      omega
    · intro q
      by_cases hq : q = pid
      · subst hq
        rw [getP_payToPot_self 10 hpid]
        exact ⟨rfl, rfl, rfl⟩
      · rw [getP_payToPot_other 10 hq]
        exact ⟨rfl, rfl, rfl⟩
  · have hbs : blindStep s pid = s := by
      simp only [blindStep]
      rw [if_neg hcond]
    rw [hbs]
    exact ⟨rfl, rfl, rfl, rfl, fun q => ⟨rfl, rfl, rfl⟩⟩

theorem foldl_blindStep_spec :
    ∀ (l : List Nat) (s : GameState),
      (l.foldl blindStep s).players.length = s.players.length ∧
      chipSum (l.foldl blindStep s) + (l.foldl blindStep s).pot
        = chipSum s + s.pot ∧
      (l.foldl blindStep s).community = s.community ∧
      (l.foldl blindStep s).deck = s.deck ∧
      (∀ q, (getP (l.foldl blindStep s) q).active = (getP s q).active ∧
        (getP (l.foldl blindStep s) q).folded = (getP s q).folded ∧
        (getP (l.foldl blindStep s) q).hand = (getP s q).hand) := by
  intro l
  induction l with
  | nil => intro s; exact ⟨rfl, rfl, rfl, rfl, fun _ => ⟨rfl, rfl, rfl⟩⟩
  | cons a t ih =>
    intro s
    have hb := blindStep_spec s a
    have ht := ih (blindStep s a)
    simp only [List.foldl_cons]
    refine ⟨ht.1.trans hb.1, ?_,
      ht.2.2.1.trans hb.2.2.1, ht.2.2.2.1.trans hb.2.2.2.1,
      fun q => ⟨(ht.2.2.2.2 q).1.trans (hb.2.2.2.2 q).1,
        (ht.2.2.2.2 q).2.1.trans (hb.2.2.2.2 q).2.1,
        (ht.2.2.2.2 q).2.2.trans (hb.2.2.2.2 q).2.2⟩⟩
    have h1 := ht.2.1
    have h2 := hb.2.1
    omega

theorem postBlinds_spec (s : GameState) :
    (postBlinds s).players.length = s.players.length ∧
    chipSum (postBlinds s) + (postBlinds s).pot = chipSum s + s.pot ∧
    (postBlinds s).community = s.community ∧
    (postBlinds s).deck = s.deck ∧
    (postBlinds s).currentBet = 10 ∧
    (∀ q, (getP (postBlinds s) q).active = (getP s q).active ∧
      (getP (postBlinds s) q).folded = (getP s q).folded ∧
      (getP (postBlinds s) q).hand = (getP s q).hand) := by
  have h := foldl_blindStep_spec (List.range s.players.length) s
  exact ⟨h.1, h.2.1, h.2.2.1, h.2.2.2.1, rfl, h.2.2.2.2⟩

theorem chipSum_eq_of_players {s s1 : GameState}
    (h : s1.players = s.players) : chipSum s1 = chipSum s := by
  unfold chipSum
  rw [h]

theorem activeInHand_eq_of_players {s s1 : GameState}
    (h : s1.players = s.players) : activeInHand s1 = activeInHand s := by
  unfold activeInHand getP
  rw [h]

theorem dealCommunity_spec :
    ∀ (n : Nat) (s s1 : GameState),
      dealCommunity s n = some s1 →
      s1.players = s.players ∧ s1.pot = s.pot ∧
      s1.currentBet = s.currentBet := by
  intro n
  induction n with
  | zero =>
    intro s s1 h
    simp only [dealCommunity, Option.some.injEq] at h
    subst h
    exact ⟨rfl, rfl, rfl⟩
  | succ n ih =>
    intro s s1 h
    rw [dealCommunity] at h
    cases hp : popEnd s.deck with
    | none => rw [hp] at h; simp at h
    | some cd =>
      obtain ⟨c, d⟩ := cd
      rw [hp] at h
      dsimp only at h
      have hrec := ih _ s1 h
      exact ⟨hrec.1, hrec.2.1, hrec.2.2⟩

theorem getP_eq_of_players {s s1 : GameState}
    (h : s1.players = s.players) : ∀ q, getP s1 q = getP s q := by
  intro q
  unfold getP
  rw [h]

theorem runStreets_spec {fuel : Nat} {s sMid : GameState}
    {script rest : List Incoming}
    (h : runStreets fuel s script = some (sMid, rest))
    (hact : 1 ≤ (activeInHand s).length) :
    sMid.players.length = s.players.length ∧
    chipSum sMid + sMid.pot = chipSum s + s.pot ∧
    1 ≤ (activeInHand sMid).length ∧
    (∀ q, (getP sMid q).active = true → (getP s q).active = true) := by
  unfold runStreets at h
  cases hb1 : betting_round fuel "Pre-Flop" s script with
  | none => rw [hb1] at h; simp at h
  | some v1 =>
    obtain ⟨s1, r1, p1, n1⟩ := v1
    rw [hb1] at h
    dsimp only at h
    have hs1 := betting_round_spec hb1
    have hlen1 : s1.players.length = s.players.length := hs1.1
    have hcons1 : chipSum s1 + s1.pot = chipSum s + s.pot := hs1.2.1
    have hact1 : 1 ≤ (activeInHand s1).length := hs1.2.2.2.2.2.2 hact
    have hmono1 : ∀ q, (getP s1 q).active = true → (getP s q).active = true :=
      fun q hq => hs1.2.2.1 q hq
    by_cases hlt1 : (activeInHand s1).length < 2
    · rw [if_pos hlt1] at h
      simp only [Option.some.injEq, Prod.mk.injEq] at h
      obtain ⟨rfl, rfl⟩ := h
      exact ⟨hlen1, hcons1, hact1, hmono1⟩
    · rw [if_neg hlt1] at h
      cases hd1 : dealCommunity s1 3 with
      | none => rw [hd1] at h; simp at h
      | some s1c =>
        rw [hd1] at h
        dsimp only at h
        have hp1 := dealCommunity_spec 3 s1 s1c hd1
        have hlen1c : s1c.players.length = s.players.length := by
          rw [hp1.1]; exact hlen1
        have hcons1c : chipSum s1c + s1c.pot = chipSum s + s.pot := by
          rw [chipSum_eq_of_players hp1.1, hp1.2.1]; exact hcons1
        have hact1c : 1 ≤ (activeInHand s1c).length := by
          rw [activeInHand_eq_of_players hp1.1]; exact hact1
        have hmono1c : ∀ q, (getP s1c q).active = true →
            (getP s q).active = true := fun q hq =>
          hmono1 q (by rw [getP_eq_of_players hp1.1 q] at hq; exact hq)
        cases hb2 : betting_round fuel "Flop" s1c r1 with
        | none => rw [hb2] at h; simp at h
        | some v2 =>
          obtain ⟨s2, r2, p2, n2⟩ := v2
          rw [hb2] at h
          dsimp only at h
          have hs2 := betting_round_spec hb2
          have hlen2 : s2.players.length = s.players.length :=
            hs2.1.trans hlen1c
          have hcons2 : chipSum s2 + s2.pot = chipSum s + s.pot :=
            hs2.2.1.trans hcons1c
          have hact2 : 1 ≤ (activeInHand s2).length :=
            hs2.2.2.2.2.2.2 hact1c
          have hmono2 : ∀ q, (getP s2 q).active = true →
              (getP s q).active = true :=
            fun q hq => hmono1c q (hs2.2.2.1 q hq)
          by_cases hlt2 : (activeInHand s2).length < 2
          · rw [if_pos hlt2] at h
            simp only [Option.some.injEq, Prod.mk.injEq] at h
            obtain ⟨rfl, rfl⟩ := h
            exact ⟨hlen2, hcons2, hact2, hmono2⟩
          · rw [if_neg hlt2] at h
            cases hd2 : dealCommunity s2 1 with
            | none => rw [hd2] at h; simp at h
            | some s2c =>
              rw [hd2] at h
              dsimp only at h
              have hp2 := dealCommunity_spec 1 s2 s2c hd2
              have hlen2c : s2c.players.length = s.players.length := by
                rw [hp2.1]; exact hlen2
              have hcons2c : chipSum s2c + s2c.pot = chipSum s + s.pot := by
                rw [chipSum_eq_of_players hp2.1, hp2.2.1]; exact hcons2
              have hact2c : 1 ≤ (activeInHand s2c).length := by
                rw [activeInHand_eq_of_players hp2.1]; exact hact2
              have hmono2c : ∀ q, (getP s2c q).active = true →
                  (getP s q).active = true := fun q hq =>
                hmono2 q (by rw [getP_eq_of_players hp2.1 q] at hq; exact hq)
              cases hb3 : betting_round fuel "Turn" s2c r2 with
              | none => rw [hb3] at h; simp at h
              | some v3 =>
                obtain ⟨s3, r3, p3, n3⟩ := v3
                rw [hb3] at h
                dsimp only at h
                have hs3 := betting_round_spec hb3
                have hlen3 : s3.players.length = s.players.length :=
                  hs3.1.trans hlen2c
                have hcons3 : chipSum s3 + s3.pot = chipSum s + s.pot :=
                  hs3.2.1.trans hcons2c
                have hact3 : 1 ≤ (activeInHand s3).length :=
                  hs3.2.2.2.2.2.2 hact2c
                have hmono3 : ∀ q, (getP s3 q).active = true →
                    (getP s q).active = true :=
                  fun q hq => hmono2c q (hs3.2.2.1 q hq)
                by_cases hlt3 : (activeInHand s3).length < 2
                · rw [if_pos hlt3] at h
                  simp only [Option.some.injEq, Prod.mk.injEq] at h
                  obtain ⟨rfl, rfl⟩ := h
                  exact ⟨hlen3, hcons3, hact3, hmono3⟩
                · rw [if_neg hlt3] at h
                  cases hd3 : dealCommunity s3 1 with
                  | none => rw [hd3] at h; simp at h
                  | some s3c =>
                    rw [hd3] at h
                    dsimp only at h
                    have hp3 := dealCommunity_spec 1 s3 s3c hd3
                    have hlen3c : s3c.players.length = s.players.length := by
                      rw [hp3.1]; exact hlen3
                    have hcons3c : chipSum s3c + s3c.pot
                        = chipSum s + s.pot := by
                      rw [chipSum_eq_of_players hp3.1, hp3.2.1]; exact hcons3
                    have hact3c : 1 ≤ (activeInHand s3c).length := by
                      rw [activeInHand_eq_of_players hp3.1]; exact hact3
                    have hmono3c : ∀ q, (getP s3c q).active = true →
                        (getP s q).active = true := fun q hq =>
                      hmono3 q
                        (by rw [getP_eq_of_players hp3.1 q] at hq; exact hq)
                    cases hb4 : betting_round fuel "River" s3c r3 with
                    | none => rw [hb4] at h; simp at h
                    | some v4 =>
                      obtain ⟨s4, r4, p4, n4⟩ := v4
                      rw [hb4] at h
                      dsimp only at h
                      simp only [Option.some.injEq, Prod.mk.injEq] at h
                      obtain ⟨rfl, rfl⟩ := h
                      have hs4 := betting_round_spec hb4
                      exact ⟨hs4.1.trans hlen3c, hs4.2.1.trans hcons3c,
                        hs4.2.2.2.2.2.2 hact3c,
                        fun q hq => hmono3c q (hs4.2.2.1 q hq)⟩

theorem mem_activeInHand {s : GameState} {q : Nat} :
    q ∈ activeInHand s ↔ q < s.players.length ∧
      (getP s q).folded = false ∧ (getP s q).active = true := by
  unfold activeInHand
  rw [List.mem_filter, List.mem_range]
  constructor
  · rintro ⟨h1, h2⟩
    rcases (Bool.and_eq_true _ _).mp h2 with ⟨ha, hb⟩
    refine ⟨h1, ?_, hb⟩
    revert ha
    cases (getP s q).folded <;> simp
  · rintro ⟨h1, h2, h3⟩
    refine ⟨h1, ?_⟩
    rw [h2, h3]
    rfl

theorem start_round_conservation {fuel : Nat} {s sEnd : GameState}
    {newDeck : List Card} {script rest : List Incoming}
    (hpot : s.pot = 0) (hact : 1 ≤ (activeInHand s).length)
    (h : start_round fuel s newDeck script = some (sEnd, rest)) :
    ∃ sMid rem, chipSum s = chipSum sEnd + rem ∧ sEnd.pot = 0 ∧
      1 ≤ (winnersOf sMid).length ∧
      rem ≤ (winnersOf sMid).length - 1 := by
  unfold start_round at h
  dsimp only at h
  cases hdl : dealLoop
      { s with deck := newDeck, pot := 0, currentBet := 0, community := [] }
      (List.range s.players.length) with
  | none => rw [hdl] at h; simp at h
  | some s2 =>
    rw [hdl] at h
    dsimp only at h
    have hdls := dealLoop_spec (List.range s.players.length)
      { s with deck := newDeck, pot := 0, currentBet := 0, community := [] } s2
      (List.nodup_range _)
      (fun p hp => List.mem_range.1 hp) hdl
    have hsub : ∀ q ∈ activeInHand s, q ∈ activeInHand s2 := by
      intro q hq
      have hq1 := mem_activeInHand.mp hq
      have hmemr : q ∈ List.range s.players.length := List.mem_range.2 hq1.1
      have hflags := hdls.2.2.2.2.2.2 q hmemr
      refine mem_activeInHand.mpr ⟨?_, ?_, ?_⟩
      · rw [hdls.1]; exact hq1.1
      · exact hflags.2.2.1 hq1.2.2
      · rw [hflags.1]; exact hq1.2.2
    have hact2 : 1 ≤ (activeInHand s2).length := by
      obtain ⟨a, ha⟩ := List.exists_mem_of_length_pos hact
      exact List.length_pos_of_mem (hsub a ha)
    have hpb := postBlinds_spec s2
    have hactpb : 1 ≤ (activeInHand (postBlinds s2)).length := by
      rw [activeInHand_eq_of_flags hpb.1
        (fun q => ⟨(hpb.2.2.2.2.2 q).1, (hpb.2.2.2.2.2 q).2.1⟩)]
      exact hact2
    cases hrun : runStreets fuel (postBlinds s2) script with
    | none => rw [hrun] at h; simp at h
    | some v =>
      obtain ⟨sMid, rest1⟩ := v
      rw [hrun] at h
      dsimp only at h
      have hrs := runStreets_spec hrun hactpb
      cases hres : resolve_winner sMid with
      | none => rw [hres] at h; simp at h
      | some w =>
        obtain ⟨sEnd1, msgs⟩ := w
        rw [hres] at h
        dsimp only at h
        simp only [Option.some.injEq, Prod.mk.injEq] at h
        obtain ⟨rfl, rfl⟩ := h
        have hrc := resolve_winner_conservation hrs.2.2.1
          (fun p hp => mem_activeInHand_lt hp) hres
        refine ⟨sMid,
          if 2 ≤ (activeInHand sMid).length
            then sMid.pot % (winnersOf sMid).length else 0,
          ?_, hrc.2.2.2, hrc.2.1, ?_⟩
        · -- conservation chain through dealing, blinds, streets, resolution
          have h1 : chipSum s2 = chipSum s := hdls.2.1
          have h2 : s2.pot = 0 := hdls.2.2.1
          have h3 := hpb.2.1
          have h4 := hrs.2.1
          have h5 := hrc.1
          have h6 := hrc.2.2.2
          omega
        · by_cases hc : 2 ≤ (activeInHand sMid).length
          · rw [if_pos hc]
            have hw := hrc.2.1
            have := Nat.mod_lt sMid.pot
              (show 0 < (winnersOf sMid).length by omega)
            omega
          · rw [if_neg hc]
            omega

/-- C1: chip conservation.  First conjunct: every single processed action —
FOLD, CHECK, CALL, BET, RAISE, QUIT, rejected or malformed input included —
leaves `sum(seat.chips) + pot` unchanged.  Second conjunct: a whole round
started on a table with an empty pot and at least one live seat ends with
the pre-round chip total recovered up to a remainder that is at most
`number_of_winners - 1` (the floor-division loss on split pots), and with
the pot zeroed. -/
theorem C1_chip_conservation :
    (∀ (s : GameState) (pid : Nat) (data : ActionMsg),
        pid < s.players.length →
        chipSum (handle_action s pid data).1 + (handle_action s pid data).1.pot
          = chipSum s + s.pot) ∧
    (∀ (fuel : Nat) (s sEnd : GameState) (newDeck : List Card)
        (script rest : List Incoming),
        s.pot = 0 → 1 ≤ (activeInHand s).length →
        start_round fuel s newDeck script = some (sEnd, rest) →
        ∃ sMid rem, chipSum s = chipSum sEnd + rem ∧ sEnd.pot = 0 ∧
          1 ≤ (winnersOf sMid).length ∧
          rem ≤ (winnersOf sMid).length - 1) :=
  ⟨fun s pid data hpid => (handle_action_spec s pid data hpid).2.1,
   fun _ _ _ _ _ _ hpot hact h => start_round_conservation hpot hact h⟩

/-- Closed instance of C1 on the two-seat table: an immediate fold of seat 0
conserves chips, and the concrete folded round returns the full 2000 chips
(no split, so remainder 0). -/
theorem C1_witness :
    (chipSum (handle_action demoS 0 foldMsg).1
        + (handle_action demoS 0 foldMsg).1.pot = chipSum demoS + demoS.pot) ∧
    (∃ sEnd rest,
      start_round 100 demoS demoDeck [Incoming.msg foldMsg]
          = some (sEnd, rest) ∧
      ∃ sMid rem, chipSum demoS = chipSum sEnd + rem ∧ sEnd.pot = 0 ∧
        1 ≤ (winnersOf sMid).length ∧
        rem ≤ (winnersOf sMid).length - 1) :=
  ⟨C1_chip_conservation.1 demoS 0 foldMsg (by decide),
   ⟨_, _, rfl,
    C1_chip_conservation.2 100 demoS _ demoDeck [Incoming.msg foldMsg] _
      rfl (by decide) rfl⟩⟩

/-- C9 counterexample: on a concrete single-contender table the resolver's
winner notice carries the reason string "Last player standing", not the
"last remaining" the claim quotes. -/
theorem C9_counterexample_reason_string :
    (∃ s1, resolve_winner demoSingleS
        = some (s1, [.winner 0 "Last player standing" 50])) ∧
    (∀ s1 msgs, resolve_winner demoSingleS = some (s1, msgs) →
      OutMsg.winner 0 "last remaining" 50 ∉ msgs) := by
  constructor
  · refine ⟨clearPot (setP demoSingleS 0
        { getP demoSingleS 0 with
          chips := (getP demoSingleS 0).chips + demoSingleS.pot }), ?_⟩
    decide
  · intro s1 msgs h hmem
    have h5 : resolve_winner demoSingleS
        = some (clearPot (setP demoSingleS 0
            { getP demoSingleS 0 with
              chips := (getP demoSingleS 0).chips + demoSingleS.pot }),
          [.winner 0 "Last player standing" demoSingleS.pot]) := by decide
    rw [h5] at h
    simp only [Option.some.injEq, Prod.mk.injEq] at h
    rw [← h.2] at hmem
    simp at hmem

/-- C9 (amended): at round resolution, zero contenders discard the pot —
no seat is refunded and the pot is zeroed; exactly one contender is
credited the entire pot, with reason string "Last player standing" (the
claim's quoted reason "last remaining" does not occur in the code);
otherwise — when every contender's hand evaluates — the contenders of
maximal best-5 score split the pot by floor division, each winner's stack
is credited the quotient and nobody else's stack moves, every contender's
hand is shown and revealed to the table, and the pot is zeroed. -/
theorem C9_amended_resolution (s : GameState) :
    (activeInHand s = [] →
      resolve_winner s = some (clearPot s, [.info (.table none)]) ∧
      (clearPot s).pot = 0 ∧
      (∀ q, (getP (clearPot s) q).chips = (getP s q).chips)) ∧
    (∀ w, activeInHand s = [w] →
      ∃ s1, resolve_winner s = some (s1, [.winner w "Last player standing" s.pot]) ∧
        s1.pot = 0 ∧
        (getP s1 w).chips = (getP s w).chips + s.pot ∧
        (∀ q, q ≠ w → getP s1 q = getP s q)) ∧
    (2 ≤ (activeInHand s).length →
      (∀ pid ∈ activeInHand s,
        (evaluate_hand ((getP s pid).hand ++ s.community)).isSome = true) →
      ∃ s1 W, resolve_winner s =
          some (s1, (activeInHand s).map (.showdown ·) ++ [.reveal] ++
            [.winnerSplit W s.pot (decide (1 < W.length))]) ∧
        (∀ x, x ∈ W ↔ x ∈ winnersOf s) ∧
        W.length = (winnersOf s).length ∧ 1 ≤ W.length ∧
        s1.pot = 0 ∧
        (∀ q ∈ W, (getP s1 q).chips = (getP s q).chips + s.pot / W.length) ∧
        (∀ q, q ∉ W → getP s1 q = getP s q)) := by
  refine ⟨?_, ?_, ?_⟩
  · intro h
    exact ⟨resolve_winner_empty h, rfl, fun _ => rfl⟩
  · intro w h
    have hwlt : w < s.players.length :=
      mem_activeInHand_lt (h ▸ List.mem_cons_self w [])
    refine ⟨_, resolve_winner_single h, rfl, ?_, ?_⟩
    · show (getP (setP s w _) w).chips = _
      rw [getP_setP_self _ hwlt]
    · intro q hq
      show getP (setP s w _) q = getP s q
      exact getP_setP_other _ hq
  · intro h2 hall
    obtain ⟨W, hres, hnd, hlt, hiff, hlen, h1⟩ := resolve_winner_showdown h2 hall
    have hca := creditAll_spec W s (s.pot / W.length)
    refine ⟨_, W, hres, hiff, hlen, h1, rfl, ?_, ?_⟩
    · intro q hq
      show (getP (creditAll s W _) q).chips = _
      rw [hca.2.2.2.2.2.2 hnd hlt q hq]
    · intro q hq
      show getP (creditAll s W _) q = getP s q
      exact hca.2.2.2.2.2.1 q hq

/-- Closed instance of C9 on concrete tables: the discarded pot with no
contenders, the lone contender collecting 50, and a two-seat showdown in
which the tied seats split the 100-chip pot. -/
theorem C9_amended_witness :
    (activeInHand demoEmptyS = [] ∧
      resolve_winner demoEmptyS
        = some (clearPot demoEmptyS, [.info (.table none)])) ∧
    (activeInHand demoSingleS = [0] ∧
      ∃ s1, resolve_winner demoSingleS
          = some (s1, [.winner 0 "Last player standing" demoSingleS.pot]) ∧
        s1.pot = 0 ∧
        (getP s1 0).chips = (getP demoSingleS 0).chips + demoSingleS.pot ∧
        (∀ q, q ≠ 0 → getP s1 q = getP demoSingleS q)) ∧
    (2 ≤ (activeInHand demoShowS).length ∧
      ∃ s1 W, resolve_winner demoShowS =
          some (s1, (activeInHand demoShowS).map (.showdown ·) ++ [.reveal] ++
            [.winnerSplit W demoShowS.pot (decide (1 < W.length))]) ∧
        (∀ x, x ∈ W ↔ x ∈ winnersOf demoShowS) ∧
        W.length = (winnersOf demoShowS).length ∧ 1 ≤ W.length ∧
        s1.pot = 0 ∧
        (∀ q ∈ W, (getP s1 q).chips
          = (getP demoShowS q).chips + demoShowS.pot / W.length) ∧
        (∀ q, q ∉ W → getP s1 q = getP demoShowS q)) :=
  ⟨⟨by decide, ((C9_amended_resolution demoEmptyS).1 (by decide)).1⟩,
   ⟨by decide, (C9_amended_resolution demoSingleS).2.1 0 (by decide)⟩,
   ⟨by decide, (C9_amended_resolution demoShowS).2.2 (by decide) (by decide)⟩⟩

theorem resolve_some_hall {s : GameState} {r : GameState × List OutMsg}
    (h2 : 2 ≤ (activeInHand s).length) (h : resolve_winner s = some r) :
    ∀ pid ∈ activeInHand s,
      (evaluate_hand ((getP s pid).hand ++ s.community)).isSome = true := by
  rcases hA : activeInHand s with - | ⟨c1, - | ⟨c2, cs⟩⟩
  · rw [hA] at h2; simp at h2
  · rw [hA] at h2; simp at h2
  · intro pid hpid
    rcases hs : evaluate_hand ((getP s pid).hand ++ s.community) with - | v
    · exfalso
      have hnone : showdownResults s = none := by
        unfold showdownResults
        rcases hmm : (activeInHand s).mapM (fun pid =>
          match evaluate_hand ((getP s pid).hand ++ s.community) with
          | none => none
          | some sc => some (sc.1, pid, sc.2)) with - | ys
        · exact hmm
        · exfalso
          have hpid2 : pid ∈ activeInHand s := by rw [hA]; exact hpid
          rcases mem_of_mapM_some hmm hpid2 with ⟨z, -, hz⟩
          rw [hs] at hz
          simp at hz
      unfold resolve_winner at h
      rw [hA, hnone] at h
      simp at h
    · simp [hs]

theorem getP_clearPot (s : GameState) (q : Nat) :
    getP (clearPot s) q = getP s q := rfl

theorem resolve_winner_flags {s s1 : GameState} {msgs : List OutMsg}
    (hlt : ∀ p ∈ activeInHand s, p < s.players.length)
    (h : resolve_winner s = some (s1, msgs)) :
    s1.players.length = s.players.length ∧
    (∀ q, (getP s1 q).active = (getP s q).active ∧
      (getP s1 q).folded = (getP s q).folded) := by
  rcases hA : activeInHand s with - | ⟨c1, - | ⟨c2, cs⟩⟩
  · rw [resolve_winner_empty hA] at h
    simp only [Option.some.injEq, Prod.mk.injEq] at h
    obtain ⟨rfl, -⟩ := h
    exact ⟨rfl, fun q => ⟨rfl, rfl⟩⟩
  · rw [resolve_winner_single hA] at h
    simp only [Option.some.injEq, Prod.mk.injEq] at h
    obtain ⟨rfl, -⟩ := h
    have hc1lt : c1 < s.players.length := by
      have := hlt c1
      rw [hA] at this
      exact this (by simp)
    refine ⟨?_, ?_⟩
    · show (s.players.set c1 _).length = _
      simp
    · intro q
      rw [getP_clearPot]
      by_cases hq : q = c1
      · subst hq
        rw [getP_setP_self _ hc1lt]
        exact ⟨rfl, rfl⟩
      · rw [getP_setP_other _ hq]
        exact ⟨rfl, rfl⟩
  · have h2 : 2 ≤ (activeInHand s).length := by
      rw [hA]; simp only [List.length_cons]; omega
    have hall := resolve_some_hall h2 h
    obtain ⟨W, heq, hnd, hWlt, -, -, -⟩ := resolve_winner_showdown h2 hall
    rw [heq] at h
    simp only [Option.some.injEq, Prod.mk.injEq] at h
    obtain ⟨rfl, -⟩ := h
    have hca := creditAll_spec W s (s.pot / W.length)
    refine ⟨hca.1, ?_⟩
    intro q
    rw [getP_clearPot]
    by_cases hq : q ∈ W
    · rw [hca.2.2.2.2.2.2 hnd hWlt q hq]
      exact ⟨rfl, rfl⟩
    · rw [hca.2.2.2.2.2.1 q hq]
      exact ⟨rfl, rfl⟩

theorem getP_reset_for_new_game (s : GameState) (n q : Nat) :
    (getP (reset_for_new_game s n) q).active = (getP s q).active := by
  unfold reset_for_new_game getP List.getD
  rw [List.get?_map]
  cases s.players.get? q <;> rfl

theorem start_round_active_false {fuel : Nat} {s sEnd : GameState}
    {newDeck : List Card} {script rest : List Incoming} {q : Nat}
    (hact : 1 ≤ (activeInHand s).length)
    (h : start_round fuel s newDeck script = some (sEnd, rest))
    (hq : (getP s q).active = false) :
    (getP sEnd q).active = false := by
  unfold start_round at h
  dsimp only at h
  cases hdl : dealLoop
      { s with deck := newDeck, pot := 0, currentBet := 0, community := [] }
      (List.range s.players.length) with
  | none => rw [hdl] at h; simp at h
  | some s2 =>
    rw [hdl] at h
    dsimp only at h
    have hdls := dealLoop_spec (List.range s.players.length)
      { s with deck := newDeck, pot := 0, currentBet := 0, community := [] } s2
      (List.nodup_range _)
      (fun p hp => List.mem_range.1 hp) hdl
    have hq2 : (getP s2 q).active = false := by
      by_cases hmem : q ∈ List.range s.players.length
      · rw [(hdls.2.2.2.2.2.2 q hmem).1]; exact hq
      · rw [hdls.2.2.2.2.2.1 q hmem]; exact hq
    have hsub : ∀ p ∈ activeInHand s, p ∈ activeInHand s2 := by
      intro p hp
      have hp1 := mem_activeInHand.mp hp
      have hmemr : p ∈ List.range s.players.length := List.mem_range.2 hp1.1
      have hflags := hdls.2.2.2.2.2.2 p hmemr
      refine mem_activeInHand.mpr ⟨?_, ?_, ?_⟩
      · rw [hdls.1]; exact hp1.1
      · exact hflags.2.2.1 hp1.2.2
      · rw [hflags.1]; exact hp1.2.2
    have hact2 : 1 ≤ (activeInHand s2).length := by
      obtain ⟨a, ha⟩ := List.exists_mem_of_length_pos hact
      exact List.length_pos_of_mem (hsub a ha)
    have hpb := postBlinds_spec s2
    have hactpb : 1 ≤ (activeInHand (postBlinds s2)).length := by
      rw [activeInHand_eq_of_flags hpb.1
        (fun p => ⟨(hpb.2.2.2.2.2 p).1, (hpb.2.2.2.2.2 p).2.1⟩)]
      exact hact2
    have hqpb : (getP (postBlinds s2) q).active = false := by
      rw [(hpb.2.2.2.2.2 q).1]; exact hq2
    cases hrun : runStreets fuel (postBlinds s2) script with
    | none => rw [hrun] at h; simp at h
    | some v =>
      obtain ⟨sMid, rest1⟩ := v
      rw [hrun] at h
      dsimp only at h
      cases hres : resolve_winner sMid with
      | none => rw [hres] at h; simp at h
      | some w =>
        obtain ⟨sEnd1, msgs⟩ := w
        rw [hres] at h
        dsimp only at h
        simp only [Option.some.injEq, Prod.mk.injEq] at h
        obtain ⟨rfl, rfl⟩ := h
        have hflags := resolve_winner_flags
          (fun p hp => mem_activeInHand_lt hp) hres
        rw [(hflags.2 q).1]
        have hmono := (runStreets_spec hrun hactpb).2.2.2
        cases hsm : (getP sMid q).active with
        | false => rfl
        | true =>
          have hcontra := hmono q hsm
          rw [hqpb] at hcontra
          exact Bool.noConfusion hcontra

theorem handle_action_cheat_fire {s : GameState} {pid : Nat}
    {data : ActionMsg} {a c : Int} {real : Nat × String}
    (hverb : normalizeVerb data.action = "BET" ∨
      normalizeVerb data.action = "RAISE")
    (hamt : data.amount = some a) (hpos : 0 < a)
    (haff : ¬ ((getP s pid).chips < s.currentBet - (getP s pid).bet + a.toNat))
    (hclaim : data.claimedScore = some c)
    (hreal : evaluate_hand ((getP s pid).hand ++ s.community) = some real)
    (hlt : (real.1 : Int) < c) :
    handle_action s pid data =
      (setP s pid { getP s pid with active := false, folded := true }, .done,
       [.kicked pid, .info (.table (some pid))]) := by
  rw [bet_raise_chain hverb, hamt]
  dsimp only
  rw [if_neg (by omega), if_neg haff, hclaim]
  dsimp only [Option.getD]
  have h0 : (0 : Int) ≤ c := by
    have := Int.natCast_nonneg real.1
    omega
  rw [if_pos h0, cheat_check_fire hreal hlt]

theorem handle_action_no_cheat {s : GameState} {pid : Nat} {data : ActionMsg}
    (hpid : pid < s.players.length)
    (hverb : normalizeVerb data.action = "BET" ∨
      normalizeVerb data.action = "RAISE")
    (hclaim : data.claimedScore = none ∨ data.claimedScore.getD (-1) ≤ 0) :
    OutMsg.kicked pid ∉ (handle_action s pid data).2.2 ∧
    (getP (handle_action s pid data).1 pid).active = (getP s pid).active ∧
    (getP (handle_action s pid data).1 pid).folded = (getP s pid).folded := by
  have hc0 : data.claimedScore.getD (-1) ≤ 0 := by
    rcases hclaim with h | h
    · rw [h]; decide
    · exact h
  rw [bet_raise_chain hverb]
  cases hamt : data.amount with
  | none => exact ⟨by simp, rfl, rfl⟩
  | some a =>
    dsimp only
    by_cases ha : a ≤ 0
    · rw [if_pos ha]
      exact ⟨by simp, rfl, rfl⟩
    · rw [if_neg ha]
      by_cases haff :
          (getP s pid).chips < s.currentBet - (getP s pid).bet + a.toNat
      · rw [if_pos haff]
        exact ⟨by simp, rfl, rfl⟩
      · rw [if_neg haff]
        by_cases hge : (0 : Int) ≤ data.claimedScore.getD (-1)
        · rw [if_pos hge]
          cases hev : evaluate_hand ((getP s pid).hand ++ s.community) with
          | none =>
            have hcc : cheat_check s pid (data.claimedScore.getD (-1))
                = none := by
              simp only [cheat_check, hev]
            rw [hcc]
            exact ⟨by simp, rfl, rfl⟩
          | some real =>
            have hpass := cheat_check_pass hev
              (le_trans hc0 (Int.natCast_nonneg real.1))
            rw [hpass]
            dsimp only
            refine ⟨by simp, ?_, ?_⟩
            · rw [getP_applyBetRaise_self _ hpid]
            · rw [getP_applyBetRaise_self _ hpid]
        · rw [if_neg hge]
          refine ⟨by simp, ?_, ?_⟩
          · rw [getP_applyBetRaise_self _ hpid]
          · rw [getP_applyBetRaise_self _ hpid]

/-- C8: cheat detection.  A BET or RAISE that passes the amount and
affordability checks and carries a claimed score strictly above the
evaluator's real score of the seat's cards triggers the kick: the seat is
deactivated and folded on the spot, the offender is sent the targeted
kick notice and the table is notified (broadcast excluding the offender).
The check never fires when the claimed score is absent or non-positive
(the state's flags and the absence of a kick notice witness this).  The
deactivation is permanent: every later processed action, betting street,
showdown resolution, game reset and full round preserves `active = false`. -/
theorem C8_cheat_detection :
    (∀ (s : GameState) (pid : Nat) (data : ActionMsg) (a c : Int)
        (real : Nat × String),
        pid < s.players.length →
        (normalizeVerb data.action = "BET" ∨
          normalizeVerb data.action = "RAISE") →
        data.amount = some a → 0 < a →
        ¬ ((getP s pid).chips < s.currentBet - (getP s pid).bet + a.toNat) →
        data.claimedScore = some c →
        evaluate_hand ((getP s pid).hand ++ s.community) = some real →
        (real.1 : Int) < c →
        handle_action s pid data =
          (setP s pid { getP s pid with active := false, folded := true },
           .done, [.kicked pid, .info (.table (some pid))]) ∧
        (getP (handle_action s pid data).1 pid).active = false ∧
        (getP (handle_action s pid data).1 pid).folded = true) ∧
    (∀ (s : GameState) (pid : Nat) (data : ActionMsg),
        pid < s.players.length →
        (normalizeVerb data.action = "BET" ∨
          normalizeVerb data.action = "RAISE") →
        (data.claimedScore = none ∨ data.claimedScore.getD (-1) ≤ 0) →
        OutMsg.kicked pid ∉ (handle_action s pid data).2.2 ∧
        (getP (handle_action s pid data).1 pid).active
          = (getP s pid).active ∧
        (getP (handle_action s pid data).1 pid).folded
          = (getP s pid).folded) ∧
    (∀ (s : GameState) (p q : Nat) (data : ActionMsg),
        p < s.players.length → (getP s q).active = false →
        (getP (handle_action s p data).1 q).active = false) ∧
    (∀ (fuel : Nat) (stage : String) (s s1 : GameState)
        (script rest : List Incoming) (pr : List Nat) (nf : Bool) (q : Nat),
        betting_round fuel stage s script = some (s1, rest, pr, nf) →
        (getP s q).active = false → (getP s1 q).active = false) ∧
    (∀ (s s1 : GameState) (msgs : List OutMsg) (q : Nat),
        resolve_winner s = some (s1, msgs) →
        (getP s q).active = false → (getP s1 q).active = false) ∧
    (∀ (s : GameState) (n q : Nat),
        (getP s q).active = false →
        (getP (reset_for_new_game s n) q).active = false) ∧
    (∀ (fuel : Nat) (s sEnd : GameState) (newDeck : List Card)
        (script rest : List Incoming) (q : Nat),
        1 ≤ (activeInHand s).length →
        start_round fuel s newDeck script = some (sEnd, rest) →
        (getP s q).active = false → (getP sEnd q).active = false) := by
  refine ⟨?_, ?_, ?_, ?_, ?_, ?_, ?_⟩
  · intro s pid data a c real hpid hverb hamt hpos haff hclaim hreal hlt
    have heq := handle_action_cheat_fire hverb hamt hpos haff hclaim hreal hlt
    refine ⟨heq, ?_, ?_⟩ <;>
      (rw [heq]; dsimp only; rw [getP_setP_self _ hpid])
  · intro s pid data hpid hverb hclaim
    exact handle_action_no_cheat hpid hverb hclaim
  · intro s p q data hp hq
    by_cases hqp : q = p
    · subst hqp
      cases hres : (getP (handle_action s q data).1 q).active with
      | false => rfl
      | true =>
        have := (handle_action_spec s q data hp).2.2.2.1 hres
        rw [hq] at this
        exact Bool.noConfusion this
    · rw [(handle_action_spec s p data hp).2.2.1 q hqp]
      exact hq
  · intro fuel stage s s1 script rest pr nf q h hq
    cases hres : (getP s1 q).active with
    | false => rfl
    | true =>
      have := (betting_round_spec h).2.2.1 q hres
      rw [hq] at this
      exact Bool.noConfusion this
  · intro s s1 msgs q h hq
    rw [(resolve_winner_flags (fun p hp => mem_activeInHand_lt hp) h).2 q
      |>.1]
    exact hq
  · intro s n q hq
    rw [getP_reset_for_new_game]
    exact hq
  · intro fuel s sEnd newDeck script rest q hact h hq
    exact start_round_active_false hact h hq

/-- Closed instance of C8: on the showdown table, an overclaimed RAISE by
seat 0 is kicked with the exact notices; a claimed score of 0 passes; and
`active = false` (here of the out-of-range ghost seat 5, whose read
defaults to an inactive seat) survives an action, a betting street, a
resolution, a reset and a whole round. -/
theorem C8_witness :
    (handle_action demoShowS 0 cheatMsg =
        (setP demoShowS 0
           { getP demoShowS 0 with active := false, folded := true },
         .done, [.kicked 0, .info (.table (some 0))]) ∧
      (getP (handle_action demoShowS 0 cheatMsg).1 0).active = false ∧
      (getP (handle_action demoShowS 0 cheatMsg).1 0).folded = true) ∧
    (OutMsg.kicked 0 ∉ (handle_action demoShowS 0 noCheatMsg).2.2 ∧
      (getP (handle_action demoShowS 0 noCheatMsg).1 0).active
        = (getP demoShowS 0).active ∧
      (getP (handle_action demoShowS 0 noCheatMsg).1 0).folded
        = (getP demoShowS 0).folded) ∧
    (getP (handle_action demoSingleS 0 foldMsg).1 5).active = false ∧
    (∃ s1 rest pr nf,
      betting_round 5 "Pre-Flop" demoSingleS [] = some (s1, rest, pr, nf) ∧
      (getP s1 5).active = false) ∧
    (∃ s1 msgs, resolve_winner demoSingleS = some (s1, msgs) ∧
      (getP s1 5).active = false) ∧
    (getP (reset_for_new_game demoSingleS 1000) 5).active = false ∧
    (∃ sEnd rest,
      start_round 100 demoS demoDeck [Incoming.msg foldMsg]
          = some (sEnd, rest) ∧
      (getP sEnd 5).active = false) :=
  ⟨C8_cheat_detection.1 demoShowS 0 cheatMsg 5 1000000 (0, "High Card")
      (by decide) (Or.inr (by decide)) rfl (by decide) (by decide) rfl
      (by decide) (by decide),
   C8_cheat_detection.2.1 demoShowS 0 noCheatMsg (by decide)
      (Or.inl (by decide)) (Or.inr (by decide)),
   C8_cheat_detection.2.2.1 demoSingleS 0 5 foldMsg (by decide) (by decide),
   ⟨_, _, _, _, rfl,
    C8_cheat_detection.2.2.2.1 5 "Pre-Flop" demoSingleS _ [] _ _ _ 5 rfl
      (by decide)⟩,
   ⟨_, _, rfl,
    C8_cheat_detection.2.2.2.2.1 demoSingleS _ _ 5 rfl (by decide)⟩,
   C8_cheat_detection.2.2.2.2.2.1 demoSingleS 1000 5 (by decide),
   ⟨_, _, rfl,
    C8_cheat_detection.2.2.2.2.2.2 100 demoS _ demoDeck
      [Incoming.msg foldMsg] _ 5 (by decide) rfl (by decide)⟩⟩

theorem bettingLoop_complete :
    ∀ (fuel : Nat) (s : GameState) (q : List Nat) (script : List Incoming)
      (pr : List Nat) (s1 : GameState) (rest : List Incoming)
      (pr1 : List Nat),
      bettingLoop fuel s q script pr = some (s1, rest, pr1, true) →
      (∀ x ∈ pr, x ∈ pr1) ∧
      (∀ qq, (getP s qq).folded = true → (getP s1 qq).folded = true) ∧
      (∀ qq, (getP s qq).active = false → (getP s1 qq).active = false) ∧
      (∀ p ∈ q, p ∈ pr1 ∨ (getP s1 p).folded = true ∨
        (getP s1 p).active = false) := by
  intro fuel
  induction fuel with
  | zero =>
    intro s q script pr s1 rest pr1 h
    simp [bettingLoop] at h
  | succ n ih =>
    intro s q script pr s1 rest pr1 h
    rw [bettingLoop.eq_def] at h
    cases q with
    | nil =>
      dsimp only at h
      simp only [Option.some.injEq, Prod.mk.injEq] at h
      obtain ⟨rfl, -, rfl, -⟩ := h
      exact ⟨fun x hx => hx, fun _ hc => hc, fun _ hc => hc,
        fun p hp => by simp at hp⟩
    | cons pid qrest =>
      dsimp only at h
      by_cases hskip : (getP s pid).folded = true ∨ (getP s pid).active = false
      · rw [if_pos (by rcases hskip with hs | hs <;> simp [hs])] at h
        have hrec := ih s qrest script pr s1 rest pr1 h
        refine ⟨hrec.1, hrec.2.1, hrec.2.2.1, ?_⟩
        intro p hp
        rcases List.mem_cons.1 hp with rfl | hp2
        · rcases hskip with hs | hs
          · exact Or.inr (Or.inl (hrec.2.1 p hs))
          · exact Or.inr (Or.inr (hrec.2.2.1 p hs))
        · exact hrec.2.2.2 p hp2
      · push_neg at hskip
        rw [if_neg (by
          simp only [Bool.or_eq_true, Bool.not_eq_true']
          push_neg
          exact ⟨by simp [hskip.1], by simp [hskip.2]⟩)] at h
        have hpid : pid < s.players.length := by
          by_contra hc
          have hd := getP_default (Nat.le_of_not_lt hc) (s := s)
          rw [hd] at hskip
          exact absurd rfl hskip.2
        rcases hpl : promptLoop s pid script with - | ⟨sa, resta, out⟩
        · rw [hpl] at h; simp at h
        · rw [hpl] at h
          dsimp only at h
          have hps := promptLoop_spec script s pid sa resta out hpid hpl
          by_cases hcont : (activeInHand sa).length ≤ 1
          · rw [if_pos hcont] at h
            simp only [Option.some.injEq, Prod.mk.injEq] at h
            obtain ⟨-, -, -, hfalse⟩ := h
            exact absurd hfalse (by simp)
          · rw [if_neg hcont] at h
            have hrec := ih sa _ resta (pr ++ [pid]) s1 rest pr1 h
            have hmonoF : ∀ qq, (getP s qq).folded = true →
                (getP sa qq).folded = true := by
              intro qq hc
              by_cases hqq : qq = pid
              · subst hqq
                cases hfa : (getP sa qq).folded with
                | true => rfl
                | false =>
                  rw [hps.2.2.2.2.1 hfa] at hc
                  exact hc
              · rw [hps.2.2.1 qq hqq]
                exact hc
            have hmonoA : ∀ qq, (getP s qq).active = false →
                (getP sa qq).active = false := by
              intro qq hc
              by_cases hqq : qq = pid
              · subst hqq
                cases hfa : (getP sa qq).active with
                | false => rfl
                | true =>
                  rw [hps.2.2.2.1 hfa] at hc
                  exact Bool.noConfusion hc
              · rw [hps.2.2.1 qq hqq]
                exact hc
            refine ⟨fun x hx => hrec.1 x (List.mem_append_left _ hx),
              fun qq hc => hrec.2.1 qq (hmonoF qq hc),
              fun qq hc => hrec.2.2.1 qq (hmonoA qq hc), ?_⟩
            intro p hp
            rcases List.mem_cons.1 hp with rfl | hp2
            · exact Or.inl (hrec.1 p (List.mem_append_right _ (by simp)))
            · refine hrec.2.2.2 p ?_
              cases out with
              | disconnected => exact hp2
              | acted reopened =>
                cases reopened with
                | false => exact hp2
                | true => exact List.mem_append_left _ hp2

theorem mem_reAdds {s : GameState} {pid : Nat} {q : List Nat} {o : Nat} :
    o ∈ reAdds s pid q ↔ o < s.players.length ∧ o ≠ pid ∧
      (getP s o).folded = false ∧ (getP s o).active = true ∧ o ∉ q := by
  unfold reAdds
  simp only [List.mem_filter, List.mem_range, decide_eq_true_eq,
    Bool.not_eq_true']

theorem reAdds_sorted (s : GameState) (pid : Nat) (q : List Nat) :
    (reAdds s pid q).Pairwise (· < ·) := by
  unfold reAdds
  exact (List.pairwise_lt_range _).filter _

theorem bettingLoop_reopen_step {fuel : Nat} {s sa : GameState} {pid : Nat}
    {qrest : List Nat} {script resta : List Incoming} {pr : List Nat}
    (hf : (getP s pid).folded = false) (ha : (getP s pid).active = true)
    (hpl : promptLoop s pid script = some (sa, resta, .acted true))
    (hcont : ¬ ((activeInHand sa).length ≤ 1)) :
    bettingLoop (fuel + 1) s (pid :: qrest) script pr =
      bettingLoop fuel sa (qrest ++ reAdds sa pid qrest) resta
        (pr ++ [pid]) := by
  rw [bettingLoop.eq_def]
  dsimp only
  rw [if_neg (by simp [hf, ha]), hpl]
  dsimp only
  rw [if_neg hcont]

theorem promptLoop_reopen {s : GameState} {pid : Nat} {data : ActionMsg}
    {rest : List Incoming} {sa : GameState} {msgs : List OutMsg}
    (htype : data.typeField ≠ some "HOST_DECISION_RESPONSE")
    (hha : handle_action s pid data = (sa, .reopen, msgs)) :
    promptLoop s pid (.msg data :: rest) = some (sa, rest, .acted true) := by
  simp only [promptLoop]
  rw [if_neg htype, hha]

/-- C5: raise re-opening.  First conjunct: a processed action answered with
the re-open result (the successful BET/RAISE outcome) ends the seat's
prompt loop with the re-open flag.  Second conjunct: the street loop then
continues with the queue `rest ++ re-adds`, where the re-added seats are
exactly the other non-folded active seats not already queued, listed in
increasing seat order (the seats' join order) at the back of the queue —
so every other live seat is enqueued for another decision.  Third
conjunct: a street that completes normally (queue drained) has prompted
every queued seat, except seats that ended the street folded or
deactivated. -/
theorem C5_raise_reenqueue :
    (∀ (s : GameState) (pid : Nat) (data : ActionMsg)
        (rest : List Incoming) (sa : GameState) (msgs : List OutMsg),
        data.typeField ≠ some "HOST_DECISION_RESPONSE" →
        handle_action s pid data = (sa, .reopen, msgs) →
        promptLoop s pid (.msg data :: rest)
          = some (sa, rest, .acted true)) ∧
    (∀ (fuel : Nat) (s sa : GameState) (pid : Nat) (qrest : List Nat)
        (script resta : List Incoming) (pr : List Nat),
        (getP s pid).folded = false → (getP s pid).active = true →
        promptLoop s pid script = some (sa, resta, .acted true) →
        ¬ ((activeInHand sa).length ≤ 1) →
        bettingLoop (fuel + 1) s (pid :: qrest) script pr =
          bettingLoop fuel sa (qrest ++ reAdds sa pid qrest) resta
            (pr ++ [pid]) ∧
        (∀ o, o ∈ reAdds sa pid qrest ↔ o < sa.players.length ∧ o ≠ pid ∧
          (getP sa o).folded = false ∧ (getP sa o).active = true ∧
          o ∉ qrest) ∧
        (reAdds sa pid qrest).Pairwise (· < ·) ∧
        (∀ o, o < sa.players.length → o ≠ pid →
          (getP sa o).folded = false → (getP sa o).active = true →
          o ∈ qrest ++ reAdds sa pid qrest)) ∧
    (∀ (fuel : Nat) (s : GameState) (q : List Nat) (script : List Incoming)
        (pr : List Nat) (s1 : GameState) (rest : List Incoming)
        (pr1 : List Nat),
        bettingLoop fuel s q script pr = some (s1, rest, pr1, true) →
        ∀ p ∈ q, p ∈ pr1 ∨ (getP s1 p).folded = true ∨
          (getP s1 p).active = false) := by
  refine ⟨?_, ?_, ?_⟩
  · intro s pid data rest sa msgs htype hha
    exact promptLoop_reopen htype hha
  · intro fuel s sa pid qrest script resta pr hf ha hpl hcont
    refine ⟨bettingLoop_reopen_step hf ha hpl hcont,
      fun o => mem_reAdds, reAdds_sorted sa pid qrest, ?_⟩
    intro o holt hop hof hoa
    by_cases hoq : o ∈ qrest
    · exact List.mem_append_left _ hoq
    · exact List.mem_append_right _
        (mem_reAdds.mpr ⟨holt, hop, hof, hoa, hoq⟩)
  · intro fuel s q script pr s1 rest pr1 h
    exact (bettingLoop_complete fuel s q script pr s1 rest pr1 h).2.2.2

/-- Closed instance of C5 on the two-seat table: seat 0's 50-chip raise
re-opens the street, seat 1 is re-added behind the (empty) remaining
queue, and a both-seats-check street completes with both seats prompted. -/
theorem C5_witness :
    (promptLoop demoS 0 [.msg raiseMsg]
      = some (applyBetRaise demoS 0 50, [], .acted true)) ∧
    (bettingLoop 4 demoS [0] [.msg raiseMsg] [] =
        bettingLoop 3 (applyBetRaise demoS 0 50)
          ([] ++ reAdds (applyBetRaise demoS 0 50) 0 []) [] ([] ++ [0]) ∧
      (∀ o, o ∈ reAdds (applyBetRaise demoS 0 50) 0 [] ↔
        o < (applyBetRaise demoS 0 50).players.length ∧ o ≠ 0 ∧
        (getP (applyBetRaise demoS 0 50) o).folded = false ∧
        (getP (applyBetRaise demoS 0 50) o).active = true ∧
        o ∉ ([] : List Nat)) ∧
      (reAdds (applyBetRaise demoS 0 50) 0 []).Pairwise (· < ·) ∧
      (∀ o, o < (applyBetRaise demoS 0 50).players.length → o ≠ 0 →
        (getP (applyBetRaise demoS 0 50) o).folded = false →
        (getP (applyBetRaise demoS 0 50) o).active = true →
        o ∈ [] ++ reAdds (applyBetRaise demoS 0 50) 0 [])) ∧
    (∀ p ∈ [0, 1], p ∈ [0, 1] ∨
      (getP demoS p).folded = true ∨ (getP demoS p).active = false) :=
  ⟨C5_raise_reenqueue.1 demoS 0 raiseMsg [] (applyBetRaise demoS 0 50)
      [.info (.table none)] (by decide) rfl,
   C5_raise_reenqueue.2.1 3 demoS (applyBetRaise demoS 0 50) 0 []
      [.msg raiseMsg] [] [] (by decide) (by decide)
      (C5_raise_reenqueue.1 demoS 0 raiseMsg [] (applyBetRaise demoS 0 50)
        [.info (.table none)] (by decide) rfl) (by decide),
   C5_raise_reenqueue.2.2 5 demoS [0, 1] [.msg checkMsg, .msg checkMsg] []
      demoS [] [0, 1] rfl⟩
